import Mathlib

/-!
Verification of the column-rendering core of `query_render.py`.

The Python module renders typed query-result rows into a fixed-width text
table.  This file gives a shallow embedding of that module: Python strings
are `List Char`, Python `Decimal` values are modelled by their
`(sign, coefficient, exponent)` triple, stateful renderer classes become
structures with explicit state passing, and code paths that raise Python
exceptions return `Option`/pairs carrying an error flag.  Theorems at the
end settle the specification claims against these definitions.
-/

/-- Python strings are modelled as lists of characters. -/
abbrev Str := List Char

/-- `' ' * n`. -/
def spaces (n : Nat) : Str := List.replicate n ' '

/-- Python `'{:<w}'` / `'{:w}'` applied to a string argument: left-align and
pad with spaces on the right up to width `w` (longer strings are kept). -/
def padRight (s : Str) (w : Nat) : Str := s ++ spaces (w - s.length)

/-- Python numeric alignment `'{:w}'` on a number: right-align, pad with
spaces on the left up to width `w`. -/
def padLeft (s : Str) (w : Nat) : Str := spaces (w - s.length) ++ s

/-- Zero padding of a digit block on the left up to width `w`, as Python's
fixed-point formatting does for the fractional digits. -/
def zfill (s : Str) (w : Nat) : Str := List.replicate (w - s.length) '0' ++ s

theorem length_spaces (n : Nat) : (spaces n).length = n := by
  simp [spaces]

theorem length_padRight (s : Str) (w : Nat) :
    (padRight s w).length = max w s.length := by
  simp [padRight, length_spaces]
  omega

theorem length_padLeft (s : Str) (w : Nat) :
    (padLeft s w).length = max w s.length := by
  simp [padLeft, length_spaces]
  omega

theorem length_zfill (s : Str) (w : Nat) :
    (zfill s w).length = max w s.length := by
  simp [zfill]
  omega

theorem padRight_nil (w : Nat) : padRight [] w = spaces w := by
  simp [padRight, spaces]

/-! ### Decimal digit strings

Python renders integers in base ten; we model the digit string with a
fuel-based (hence kernel-computable) conversion. -/

/-- The character for a single decimal digit. -/
def digitChar (d : Nat) : Char := Char.ofNat (48 + d)

/-- Fuel-based base-ten conversion; the fuel is always sufficient when it
exceeds the number being converted. -/
def natToDigitsAux : Nat → Nat → Str
  | 0, _ => []
  | fuel + 1, n =>
    if n < 10 then [digitChar n]
    else natToDigitsAux fuel (n / 10) ++ [digitChar (n % 10)]

/-- The base-ten digit string of a natural number (Python `str(int)`,
without sign). -/
def natToDigits (n : Nat) : Str := natToDigitsAux (n + 1) n

/-- Number of base-ten digits (`0` has one digit, matching the coefficient
tuple `(0,)` of a Python `Decimal` zero). -/
def ndigits (n : Nat) : Nat := (natToDigits n).length

theorem natToDigitsAux_stable :
    ∀ f1 f2 n, n < f1 → n < f2 → natToDigitsAux f1 n = natToDigitsAux f2 n := by
  intro f1
  induction f1 with
  | zero => intro f2 n h; omega
  | succ f1 ih =>
    intro f2 n h1 h2
    match f2 with
    | 0 => omega
    | f2 + 1 =>
      simp only [natToDigitsAux]
      by_cases h : n < 10
      · simp [h]
      · have hd : n / 10 < n := Nat.div_lt_self (by omega) (by omega)
        simp only [h, if_false]
        rw [ih f2 (n / 10) (by omega) (by omega)]

/-- One-step unfolding of `natToDigits`. -/
theorem natToDigits_eq (n : Nat) :
    natToDigits n =
      if n < 10 then [digitChar n]
      else natToDigits (n / 10) ++ [digitChar (n % 10)] := by
  unfold natToDigits
  rw [show natToDigitsAux (n + 1) n =
        (if n < 10 then [digitChar n]
         else natToDigitsAux n (n / 10) ++ [digitChar (n % 10)]) from rfl]
  by_cases h : n < 10
  · simp [h]
  · have hd : n / 10 < n := Nat.div_lt_self (by omega) (by omega)
    simp only [h, if_false]
    rw [natToDigitsAux_stable n (n / 10 + 1) (n / 10) (by omega) (by omega)]

/-- A dedicated induction principle matching the digit recursion. -/
theorem digitsRec {P : Nat → Prop} (base : ∀ n, n < 10 → P n)
    (step : ∀ n, 10 ≤ n → P (n / 10) → P n) : ∀ n, P n := by
  intro n
  induction n using Nat.strong_induction_on with
  | _ n ih =>
    by_cases h : n < 10
    · exact base n h
    · exact step n (by omega) (ih (n / 10) (Nat.div_lt_self (by omega) (by omega)))

theorem natToDigits_ne_nil (n : Nat) : natToDigits n ≠ [] := by
  rw [natToDigits_eq]
  by_cases h : n < 10 <;> simp [h]

theorem ndigits_pos (n : Nat) : 1 ≤ ndigits n := by
  have h := natToDigits_ne_nil n
  unfold ndigits
  cases hn : natToDigits n with
  | nil => exact absurd hn h
  | cons a l => simp

theorem ndigits_lt_ten {n : Nat} (h : n < 10) : ndigits n = 1 := by
  unfold ndigits
  rw [natToDigits_eq]
  simp [h]

theorem ndigits_ge_ten {n : Nat} (h : 10 ≤ n) : ndigits n = ndigits (n / 10) + 1 := by
  unfold ndigits
  rw [natToDigits_eq]
  have h2 : ¬ n < 10 := by omega
  simp [h2]

/-- Every natural number is below ten to its digit count. -/
theorem lt_pow_ndigits : ∀ n : Nat, n < 10 ^ ndigits n := by
  apply digitsRec
  · intro n h
    rw [ndigits_lt_ten h]
    simpa using h
  · intro n h ih
    rw [ndigits_ge_ten h, pow_succ]
    have : n < (n / 10 + 1) * 10 := by
      have := Nat.div_add_mod n 10
      have : n % 10 < 10 := Nat.mod_lt n (by omega)
      omega
    calc n < (n / 10 + 1) * 10 := this
      _ ≤ 10 ^ ndigits (n / 10) * 10 := by
          have : n / 10 + 1 ≤ 10 ^ ndigits (n / 10) := ih
          exact Nat.mul_le_mul_right 10 this


/-- A bound below a power of ten bounds the digit count. -/
theorem ndigits_le_of_lt_pow : ∀ n : Nat, ∀ d, n < 10 ^ d → 1 ≤ d → ndigits n ≤ d := by
  apply digitsRec (P := fun n => ∀ d, n < 10 ^ d → 1 ≤ d → ndigits n ≤ d)
  · intro n h d _ hd
    rw [ndigits_lt_ten h]; exact hd
  · intro n h ih d hlt hd
    rw [ndigits_ge_ten h]
    have hd2 : 2 ≤ d := by
      by_contra hc
      have : d = 1 := by omega
      subst this
      simp at hlt
      omega
    have : n / 10 < 10 ^ (d - 1) := by
      have h10 : 10 ^ d = 10 ^ (d - 1) * 10 := by
        rw [← pow_succ]
        congr 1
        omega
      rw [h10] at hlt
      exact Nat.div_lt_of_lt_mul (by omega)
    have := ih (d - 1) this (by omega)
    omega

/-- Numeric value of a digit character. -/
def digitVal (c : Char) : Nat := c.toNat - 48

/-- Value of a base-ten digit string read left to right. -/
def parseDigits (s : Str) : Nat := s.foldl (fun acc c => 10 * acc + digitVal c) 0

theorem digitVal_digitChar {d : Nat} (h : d < 10) : digitVal (digitChar d) = d := by
  interval_cases d <;> decide

theorem parseDigits_append_singleton (l : Str) (c : Char) :
    parseDigits (l ++ [c]) = 10 * parseDigits l + digitVal c := by
  unfold parseDigits
  rw [List.foldl_append]
  rfl

/-- Converting to digits and reading back is the identity. -/
theorem parseDigits_natToDigits : ∀ n : Nat, parseDigits (natToDigits n) = n := by
  apply digitsRec
  · intro n h
    rw [natToDigits_eq]
    simp only [h, if_true]
    show 10 * 0 + digitVal (digitChar n) = n
    rw [digitVal_digitChar h]
    omega
  · intro n h ih
    rw [natToDigits_eq]
    have h2 : ¬ n < 10 := by omega
    simp only [h2, if_false]
    rw [parseDigits_append_singleton, ih, digitVal_digitChar (Nat.mod_lt n (by omega))]
    omega

/-- Each character of a digit string is an ASCII decimal digit. -/
theorem mem_natToDigits_digit :
    ∀ n : Nat, ∀ c ∈ natToDigits n, 48 ≤ c.toNat ∧ c.toNat ≤ 57 := by
  apply digitsRec (P := fun n => ∀ c ∈ natToDigits n, 48 ≤ c.toNat ∧ c.toNat ≤ 57)
  · intro n h c hc
    rw [natToDigits_eq] at hc
    simp only [h, if_true, List.mem_singleton] at hc
    subst hc
    interval_cases n <;> decide
  · intro n h ih c hc
    rw [natToDigits_eq] at hc
    have h2 : ¬ n < 10 := by omega
    simp only [h2, if_false, List.mem_append, List.mem_singleton] at hc
    rcases hc with hc | hc
    · exact ih c hc
    · subst hc
      have hm : n % 10 < 10 := Nat.mod_lt n (by omega)
      interval_cases hh : n % 10 <;> simp_all <;> decide

/-! ### Python `Decimal` values

A `Decimal` is modelled by its `as_tuple()` triple: sign bit, coefficient
(the digit tuple read as a natural number, so `Decimal('0.00')` is
`⟨false, 0, -2⟩` and `Decimal('-12.5')` is `⟨true, 125, -1⟩`), and
exponent. -/

structure Dec where
  sign : Bool
  coeff : Nat
  exp : Int
  deriving DecidableEq, Repr

/-- `Decimal.adjusted()`: `exponent + len(digits) - 1`. -/
def Dec.adjusted (x : Dec) : Int := x.exp + ndigits x.coeff - 1

/-- The exact rational value of a decimal. -/
def Dec.val (x : Dec) : ℚ :=
  (if x.sign then -1 else 1) * (x.coeff : ℚ) * (10 : ℚ) ^ x.exp

/-- Round-half-even division (Python's default `Decimal` context rounding),
used by fixed-point formatting when the requested precision is smaller than
a value's own precision. -/
def roundHalfEven (n d : Nat) : Nat :=
  let q := n / d
  let r := n % d
  if d < 2 * r then q + 1
  else if 2 * r < d then q
  else if q % 2 = 0 then q else q + 1

/-- The coefficient of `c * 10 ^ e` rescaled to exponent `-p`: the integer
`m` such that the fixed-point rendering with `p` fractional digits shows the
digits of `m`.  No rounding occurs when `0 ≤ e + p`, which always holds for
values that were accumulated before `prepare` chose `p`. -/
def scaleCoeff (c : Nat) (e : Int) (p : Nat) : Nat :=
  if 0 ≤ e + p then c * 10 ^ (e + p).toNat
  else roundHalfEven c (10 ^ (-(e + p)).toNat)

/-! ### `DecimalRenderer` -/

/-- Accumulation state of `DecimalRenderer.__init__`/`update`. -/
structure DecimalRenderer where
  has_negative : Bool := false
  max_adjusted : Int := 0
  min_exponent : Int := 0
  deriving DecidableEq, Repr

/-- `DecimalRenderer.update`: ignore `None`; otherwise fold the sign bit,
the adjusted exponent and the exponent into the running statistics. -/
def DecimalRenderer.update (r : DecimalRenderer) : Option Dec → DecimalRenderer
  | none => r
  | some x =>
    { has_negative := r.has_negative || x.sign
      max_adjusted := max r.max_adjusted x.adjusted
      min_exponent := min r.min_exponent x.exp }

/-- The immutable formatting parameters computed by
`DecimalRenderer.prepare`: the sign flag that selects the `' '` sign option,
the total field width and the fractional precision of the format string
`'{:{sign}{width}.{precision}f}'`. -/
structure DecPrepared where
  has_negative : Bool
  total_width : Nat
  precision : Nat
  deriving DecidableEq, Repr

/-- `DecimalRenderer.prepare`: width arithmetic for the fixed-point format.
`min_exponent`/`max_adjusted` start at `0` and only ever decrease/increase,
so the Python integers `-self.min_exponent` and `max(self.max_adjusted, 0)`
are non-negative and `Int.toNat` is exact. -/
def DecimalRenderer.prepare (r : DecimalRenderer) : DecPrepared :=
  let digits_sign : Nat := if r.has_negative then 1 else 0
  let digits_integral : Nat := (max r.max_adjusted 0).toNat + 1
  let digits_fractional : Nat := (-r.min_exponent).toNat
  let digits_period : Nat := if 0 < digits_fractional then 1 else 0
  { has_negative := r.has_negative
    total_width := digits_sign + digits_integral + digits_period + digits_fractional
    precision := digits_fractional }

/-- `DecimalRenderer.width` after `prepare`. -/
def DecPrepared.width (f : DecPrepared) : Nat := f.total_width

/-- `DecimalRenderer.format`: `None` renders as `total_width` blanks;
otherwise Python evaluates `'{:{sign}{width}.{precision}f}'.format(number)`,
i.e. an exact fixed-point rendering with `precision` fractional digits,
right-aligned to `total_width`, with a leading `' '` reserved for the sign
exactly when a negative number was accumulated. -/
def DecPrepared.format (f : DecPrepared) : Option Dec → Str
  | none => spaces f.total_width
  | some x =>
    let scaled := scaleCoeff x.coeff x.exp f.precision
    let ip := natToDigits (scaled / 10 ^ f.precision)
    let fp := zfill (natToDigits (scaled % 10 ^ f.precision)) f.precision
    let sgn : Str := if x.sign then ['-'] else if f.has_negative then [' '] else []
    padLeft (sgn ++ ip ++ (if 0 < f.precision then '.' :: fp else [])) f.total_width

/-! ### Invariants of the decimal accumulation -/

/-- State invariant established by `__init__` and preserved by `update`. -/
def DecimalRenderer.Wf (r : DecimalRenderer) : Prop :=
  r.min_exponent ≤ 0 ∧ 0 ≤ r.max_adjusted

/-- `r` has accumulated `x`: the running statistics dominate `x`. -/
def DecimalRenderer.Sees (r : DecimalRenderer) (x : Dec) : Prop :=
  (x.sign = true → r.has_negative = true) ∧
  x.adjusted ≤ r.max_adjusted ∧ r.min_exponent ≤ x.exp

theorem dec_wf_init : DecimalRenderer.Wf {} := by
  constructor <;> simp

theorem dec_wf_update {r : DecimalRenderer} (h : r.Wf) (v : Option Dec) :
    (r.update v).Wf := by
  cases v with
  | none => exact h
  | some x =>
    obtain ⟨h1, h2⟩ := h
    constructor
    · exact le_trans (min_le_left _ _) h1
    · exact le_trans h2 (le_max_left _ _)

theorem dec_sees_mono {r : DecimalRenderer} {x : Dec} (h : r.Sees x)
    (v : Option Dec) : (r.update v).Sees x := by
  cases v with
  | none => exact h
  | some y =>
    obtain ⟨h1, h2, h3⟩ := h
    refine ⟨fun hs => ?_, le_trans h2 (le_max_left _ _), le_trans (min_le_left _ _) h3⟩
    simp [DecimalRenderer.update, h1 hs]

theorem dec_sees_self (r : DecimalRenderer) (x : Dec) :
    (r.update (some x)).Sees x := by
  refine ⟨fun hs => ?_, le_max_right _ _, min_le_right _ _⟩
  simp [DecimalRenderer.update, hs]

theorem dec_wf_foldl {r : DecimalRenderer} (h : r.Wf)
    (vs : List (Option Dec)) : (vs.foldl DecimalRenderer.update r).Wf := by
  induction vs generalizing r with
  | nil => exact h
  | cons v vs ih => exact ih (dec_wf_update h v)

theorem dec_sees_foldl {r : DecimalRenderer} {x : Dec}
    (vs : List (Option Dec)) (hx : some x ∈ vs ∨ r.Sees x) :
    (vs.foldl DecimalRenderer.update r).Sees x := by
  induction vs generalizing r with
  | nil => simpa using hx.resolve_left (by simp)
  | cons v vs ih =>
    rcases hx with hm | hs
    · rcases List.mem_cons.mp hm with hv | hv
      · subst hv
        exact ih (Or.inr (dec_sees_self r x))
      · exact ih (Or.inl hv)
    · exact ih (Or.inr (dec_sees_mono hs v))

theorem DecPrepared.format_none (f : DecPrepared) :
    f.format none = spaces f.total_width := rfl

theorem padLeft_length_of_le {s : Str} {w : Nat} (h : s.length ≤ w) :
    (padLeft s w).length = w := by
  rw [length_padLeft]; omega

/-- Core width fact: a prepared decimal renderer formats every value it has
accumulated to exactly `total_width` characters. -/
theorem dec_format_length (r : DecimalRenderer) (hwf : r.Wf) (x : Dec)
    (hx : r.Sees x) :
    ((r.prepare).format (some x)).length = (r.prepare).total_width := by
  obtain ⟨hmin, hmax0⟩ := hwf
  obtain ⟨hsgn, hadj, hexp⟩ := hx
  set p : Nat := (-r.min_exponent).toNat with hp
  have hpInt : (p : Int) = -r.min_exponent := Int.toNat_of_nonneg (by omega)
  have hxp : (0 : Int) ≤ x.exp + p := by omega
  set a : Nat := (x.exp + (p : Int)).toNat with ha
  have haInt : (a : Int) = x.exp + p := Int.toNat_of_nonneg hxp
  have hscaled : scaleCoeff x.coeff x.exp p = x.coeff * 10 ^ a := by
    simp only [scaleCoeff, ha]
    rw [if_pos hxp]
  have hmaxeq : max r.max_adjusted 0 = r.max_adjusted := max_eq_left hmax0
  set I : Nat := (max r.max_adjusted 0).toNat + 1 with hI
  have hIInt : (I : Int) = r.max_adjusted + 1 := by
    have h1 : ((max r.max_adjusted 0).toNat : Int) = max r.max_adjusted 0 :=
      Int.toNat_of_nonneg (le_max_right _ _)
    push_cast [hI]
    omega
  have hadj2 : x.exp + (ndigits x.coeff : Int) - 1 ≤ r.max_adjusted := hadj
  have hip : ndigits (x.coeff * 10 ^ a / 10 ^ p) ≤ I := by
    apply ndigits_le_of_lt_pow _ _ _ (by omega)
    have hc : x.coeff < 10 ^ ndigits x.coeff := lt_pow_ndigits _
    have h2 : ndigits x.coeff + a ≤ I + p := by omega
    have hpow : (0:Nat) < 10 ^ p := Nat.pos_pow_of_pos p (by omega)
    rw [Nat.div_lt_iff_lt_mul hpow, ← pow_add]
    calc x.coeff * 10 ^ a < 10 ^ ndigits x.coeff * 10 ^ a :=
          Nat.mul_lt_mul_of_lt_of_le hc (le_refl _) (Nat.pos_pow_of_pos a (by omega))
      _ = 10 ^ (ndigits x.coeff + a) := by rw [← pow_add]
      _ ≤ 10 ^ (I + p) := Nat.pow_le_pow_right (by omega) h2
  have hfrac : 0 < p → ndigits (x.coeff * 10 ^ a % 10 ^ p) ≤ p := by
    intro hp0
    apply ndigits_le_of_lt_pow _ _ _ (by omega)
    exact Nat.mod_lt _ (Nat.pos_pow_of_pos p (by omega))
  have hprec : (r.prepare).precision = p := rfl
  have hhn : (r.prepare).has_negative = r.has_negative := rfl
  have hW : (r.prepare).total_width =
      (if r.has_negative then 1 else 0) + I + (if 0 < p then 1 else 0) + p := rfl
  simp only [DecPrepared.format, hprec, hhn, hscaled, hW]
  apply padLeft_length_of_le
  simp only [List.length_append]
  have hsl : (if x.sign then (['-'] : Str)
      else if r.has_negative then [' '] else []).length ≤
      (if r.has_negative then 1 else 0) := by
    cases hxs : x.sign with
    | true => simp [hsgn hxs]
    | false =>
      cases r.has_negative <;> simp
  have htl : (if 0 < p then
      '.' :: zfill (natToDigits (x.coeff * 10 ^ a % 10 ^ p)) p else []).length ≤
      (if 0 < p then 1 else 0) + p := by
    by_cases hp0 : 0 < p
    · simp only [hp0, if_true, List.length_cons, length_zfill]
      have h1 := hfrac hp0
      unfold ndigits at h1
      omega
    · simp [hp0]
  have hil : (natToDigits (x.coeff * 10 ^ a / 10 ^ p)).length ≤ I := hip
  omega

/-! ### Reading a fixed-point rendering back (for the round-trip claim) -/

/-- Strip the left alignment padding. -/
def dropSpaces (s : Str) : Str := s.dropWhile (fun c => c = ' ')

/-- Read an optional leading minus sign. -/
def parseSign : Str → Bool × Str
  | [] => (false, [])
  | c :: rest => if c = '-' then (true, rest) else (false, c :: rest)

/-- Boolean test used to split a rendering at the decimal point. -/
def notDot (c : Char) : Bool := !(c == '.')

/-- Read the rational value denoted by a fixed-point decimal rendering:
optional space padding, optional sign, integer digits, and an optional
fractional block after a decimal point. -/
def parseFixedPoint (s : Str) : ℚ :=
  let s1 := dropSpaces s
  let sg := parseSign s1
  let ipart := sg.2.takeWhile notDot
  let fpart := (sg.2.dropWhile notDot).drop 1
  let mag : ℚ := (parseDigits ipart : ℚ) + (parseDigits fpart : ℚ) / 10 ^ fpart.length
  if sg.1 then -mag else mag

theorem dropWhile_replicate_append (n : Nat) (l : Str) :
    (List.replicate n ' ' ++ l).dropWhile (fun c => c = ' ') =
      l.dropWhile (fun c => c = ' ') := by
  induction n with
  | zero => rfl
  | succ n ih =>
    rw [List.replicate_succ, List.cons_append, List.dropWhile_cons]
    simp only [decide_eq_true_eq, if_pos rfl]
    exact ih

theorem dropSpaces_padLeft (s : Str) (w : Nat) :
    dropSpaces (padLeft s w) = dropSpaces s := by
  unfold dropSpaces padLeft spaces
  exact dropWhile_replicate_append _ s

/-- Characters of a digit string are never space, point or minus. -/
theorem digit_char_ne {c : Char} (h : 48 ≤ c.toNat ∧ c.toNat ≤ 57) :
    ¬ c = ' ' ∧ ¬ c = '.' ∧ ¬ c = '-' := by
  refine ⟨fun hc => ?_, fun hc => ?_, fun hc => ?_⟩ <;>
    (subst hc; revert h; decide)

theorem dropSpaces_digits_cons (c : Char) (t : Str)
    (h : 48 ≤ c.toNat ∧ c.toNat ≤ 57) :
    dropSpaces (c :: t) = c :: t := by
  unfold dropSpaces
  rw [List.dropWhile_cons]
  simp [(digit_char_ne h).1]

theorem parseSign_digit (c : Char) (t : Str)
    (h : 48 ≤ c.toNat ∧ c.toNat ≤ 57) :
    parseSign (c :: t) = (false, c :: t) := by
  unfold parseSign
  simp [(digit_char_ne h).2.2]

theorem notDot_true {c : Char} (h : ¬ c = '.') : notDot c = true := by
  simp [notDot, h]

theorem notDot_dot : notDot '.' = false := by decide

theorem takeWhile_no_dot (l : Str) (h : ∀ c ∈ l, ¬ c = '.') :
    l.takeWhile notDot = l ∧ l.dropWhile notDot = [] := by
  induction l with
  | nil => exact ⟨rfl, rfl⟩
  | cons c t ih =>
    have hc : notDot c = true := notDot_true (h c (by simp))
    have iht := ih fun d hd => h d (List.mem_cons_of_mem _ hd)
    rw [List.takeWhile_cons, List.dropWhile_cons, hc]
    simp only [if_true]
    exact ⟨by rw [iht.1], iht.2⟩

theorem split_at_dot (l1 l2 : Str) (h : ∀ c ∈ l1, ¬ c = '.') :
    (l1 ++ '.' :: l2).takeWhile notDot = l1 ∧
      (l1 ++ '.' :: l2).dropWhile notDot = '.' :: l2 := by
  induction l1 with
  | nil =>
    rw [List.nil_append, List.takeWhile_cons, List.dropWhile_cons, notDot_dot]
    simp
  | cons c t ih =>
    have hc : notDot c = true := notDot_true (h c (by simp))
    have iht := ih fun d hd => h d (List.mem_cons_of_mem _ hd)
    rw [List.cons_append, List.takeWhile_cons, List.dropWhile_cons, hc]
    simp only [if_true]
    exact ⟨by rw [iht.1], iht.2⟩

theorem parseDigits_zfill (s : Str) (w : Nat) :
    parseDigits (zfill s w) = parseDigits s := by
  unfold zfill parseDigits
  rw [List.foldl_append]
  congr 1
  induction (w - s.length) with
  | zero => rfl
  | succ k ih =>
    rw [List.replicate_succ, List.foldl_cons]
    have h0 : 10 * 0 + digitVal '0' = 0 := by decide
    rw [h0]
    exact ih

theorem dropSpaces_cons_of_ne (c : Char) (t : Str) (h : ¬ c = ' ') :
    dropSpaces (c :: t) = c :: t := by
  unfold dropSpaces
  rw [List.dropWhile_cons]
  simp [h]

theorem dropSpaces_space_cons (t : Str) :
    dropSpaces (' ' :: t) = dropSpaces t := by
  unfold dropSpaces
  rw [List.dropWhile_cons]
  simp

/-- Round-trip: parsing the fixed-point rendering of any accumulated value
recovers its exact rational value — the precision chosen by `prepare` is
the maximum accumulated precision, so no digits are dropped. -/
theorem dec_parse_roundtrip (r : DecimalRenderer) (hwf : r.Wf) (x : Dec)
    (hx : r.Sees x) :
    parseFixedPoint ((r.prepare).format (some x)) = x.val := by
  obtain ⟨hmin, hmax0⟩ := hwf
  obtain ⟨hsgn, hadj, hexp⟩ := hx
  set p : Nat := (-r.min_exponent).toNat with hp
  have hpInt : (p : Int) = -r.min_exponent := Int.toNat_of_nonneg (by omega)
  have hxp : (0 : Int) ≤ x.exp + p := by omega
  set a : Nat := (x.exp + (p : Int)).toNat with ha
  have haInt : (a : Int) = x.exp + p := Int.toNat_of_nonneg hxp
  have hscaled : scaleCoeff x.coeff x.exp p = x.coeff * 10 ^ a := by
    simp only [scaleCoeff, ha]
    rw [if_pos hxp]
  have hexpa : x.exp = (a : Int) - p := by omega
  set q : Nat := x.coeff * 10 ^ a / 10 ^ p with hq
  set m : Nat := x.coeff * 10 ^ a % 10 ^ p with hm
  have hqm : 10 ^ p * q + m = x.coeff * 10 ^ a := Nat.div_add_mod _ _
  set ip : Str := natToDigits q with hip
  have hipdig : ∀ c ∈ ip, 48 ≤ c.toNat ∧ c.toNat ≤ 57 := mem_natToDigits_digit q
  obtain ⟨ipc, ipt, hipc⟩ := List.exists_cons_of_ne_nil (natToDigits_ne_nil q)
  have hprec : (r.prepare).precision = p := rfl
  have hhn : (r.prepare).has_negative = r.has_negative := rfl
  set tailE : Str := if 0 < p then '.' :: zfill (natToDigits m) p else [] with htail
  have hfmt : (r.prepare).format (some x) =
      padLeft ((if x.sign then ['-'] else if r.has_negative then [' '] else []) ++
        (ip ++ tailE)) (r.prepare).total_width := by
    simp only [DecPrepared.format, hprec, hhn, hscaled, hip, htail, hq, hm, zfill]
    rw [List.append_assoc]
  have hipc_digit : 48 ≤ ipc.toNat ∧ ipc.toNat ≤ 57 := by
    apply hipdig
    rw [hip, hipc]
    simp
  have hsg : parseSign (dropSpaces ((r.prepare).format (some x))) =
      (x.sign, ip ++ tailE) := by
    rw [hfmt, dropSpaces_padLeft]
    cases hxs : x.sign with
    | true =>
      simp only [if_true]
      rw [List.singleton_append, dropSpaces_cons_of_ne _ _ (by decide)]
      unfold parseSign
      simp
    | false =>
      simp only [if_false, Bool.false_eq_true]
      have hdigits : dropSpaces (ip ++ tailE) = ip ++ tailE := by
        rw [hip, hipc, List.cons_append]
        exact dropSpaces_digits_cons _ _ hipc_digit
      have hps : parseSign (ip ++ tailE) = (false, ip ++ tailE) := by
        rw [hip, hipc, List.cons_append]
        exact parseSign_digit _ _ hipc_digit
      by_cases hhneg : r.has_negative = true
      · rw [hhneg]
        simp only [if_true]
        rw [List.singleton_append, dropSpaces_space_cons, hdigits, hps]
      · have : r.has_negative = false := by
          cases hb : r.has_negative
          · rfl
          · exact absurd hb hhneg
        rw [this]
        simp only [if_false, Bool.false_eq_true, List.nil_append]
        rw [hdigits, hps]
  have hnodot : ∀ c ∈ ip, ¬ c = '.' := fun c hc => (digit_char_ne (hipdig c hc)).2.1
  have hq_parse : parseDigits ip = q := parseDigits_natToDigits q
  simp only [parseFixedPoint]
  rw [hsg]
  by_cases hp0 : 0 < p
  · have htail0 : tailE = '.' :: zfill (natToDigits m) p := by
      rw [htail, if_pos hp0]
    have hsplit := split_at_dot ip (zfill (natToDigits m) p) hnodot
    rw [htail0]
    simp only [hsplit.1, hsplit.2, List.drop_succ_cons, List.drop_zero]
    have hm_parse : parseDigits (zfill (natToDigits m) p) = m := by
      rw [parseDigits_zfill, parseDigits_natToDigits]
    have hm_len : (zfill (natToDigits m) p).length = p := by
      rw [length_zfill]
      have hmlt : m < 10 ^ p := by
        rw [hm]
        exact Nat.mod_lt _ (Nat.pos_pow_of_pos p (by omega))
      have := ndigits_le_of_lt_pow m p hmlt (by omega)
      unfold ndigits at this
      omega
    rw [hq_parse, hm_parse, hm_len]
    have h10 : (10 : ℚ) ≠ 0 := by norm_num
    have hqmQ : (10 : ℚ) ^ p * q + m = (x.coeff : ℚ) * 10 ^ a := by
      exact_mod_cast hqm
    have hmagQ : (q : ℚ) + (m : ℚ) / 10 ^ p = (x.coeff : ℚ) * (10 : ℚ) ^ x.exp := by
      rw [hexpa, zpow_sub₀ h10, zpow_natCast, zpow_natCast]
      have h10p : ((10 : ℚ) ^ p) ≠ 0 := by positivity
      field_simp
      linear_combination hqmQ
    rw [hmagQ]
    unfold Dec.val
    cases x.sign <;> simp
  · have hpz : p = 0 := by omega
    have htail0 : tailE = [] := by
      rw [htail, if_neg hp0]
    have hsplit := takeWhile_no_dot ip hnodot
    rw [htail0, List.append_nil]
    simp only [hsplit.1, hsplit.2, List.drop_nil]
    rw [hq_parse]
    have hqq : q = x.coeff * 10 ^ a := by
      rw [hq, hpz, pow_zero, Nat.div_one]
    have hmagQ : (q : ℚ) + parseDigits [] / 10 ^ (List.length ([] : Str)) =
        (x.coeff : ℚ) * (10 : ℚ) ^ x.exp := by
      have : parseDigits ([] : Str) = 0 := rfl
      rw [this, hexpa, hpz]
      push_cast [hqq]
      simp [zpow_natCast]
    rw [hmagQ]
    unfold Dec.val
    cases x.sign <;> simp

/-! ### Positions, lots and inventories

`position.Position` carries a number and a `Lot`; the lot carries the unit
currency and an optional cost amount (`if cost:` on the `Amount` named
tuple is equivalent to a `None` test, since non-empty tuples are truthy). -/

structure CostAmount where
  number : Dec
  currency : Str

structure Lot where
  currency : Str
  cost : Option CostAmount

structure Position where
  number : Dec
  lot : Lot

/-! ### `PositionRenderer` (also the accumulation state of
`InventoryRenderer`, which subclasses it) -/

structure PositionRenderer where
  units_rdr : DecimalRenderer := {}
  units_ccylen : Nat := 0
  cost_rdr : DecimalRenderer := {}
  cost_ccylen : Nat := 0

/-- `PositionRenderer.update`: `None` is ignored; otherwise the unit number
and unit currency length always feed their accumulators, and the cost
number and cost currency length additionally feed theirs when a cost is
present. -/
def PositionRenderer.update (r : PositionRenderer) : Option Position → PositionRenderer
  | none => r
  | some pos =>
    match pos.lot.cost with
    | some cost =>
      { units_rdr := r.units_rdr.update (some pos.number)
        units_ccylen := max r.units_ccylen pos.lot.currency.length
        cost_rdr := r.cost_rdr.update (some cost.number)
        cost_ccylen := max r.cost_ccylen cost.currency.length }
    | none =>
      { units_rdr := r.units_rdr.update (some pos.number)
        units_ccylen := max r.units_ccylen pos.lot.currency.length
        cost_rdr := r.cost_rdr
        cost_ccylen := r.cost_ccylen }

/-- `InventoryRenderer.update`: feed every position of the inventory to the
`PositionRenderer` accumulator (`super().update(pos)`). -/
def InventoryRenderer.update (r : PositionRenderer) : Option (List Position) → PositionRenderer
  | none => r
  | some ps => ps.foldl (fun acc pos => acc.update (some pos)) r

/-- Formatting parameters computed by `PositionRenderer.prepare`: the two
prepared decimal sub-renderers and the two currency field widths. -/
structure PosPrepared where
  units_fmt : DecPrepared
  units_ccylen : Nat
  cost_fmt : DecPrepared
  cost_ccylen : Nat

/-- `PositionRenderer.prepare` prepares both decimal sub-renderers; the
format templates it builds are modelled by the template functions below. -/
def PositionRenderer.prepare (r : PositionRenderer) : PosPrepared :=
  { units_fmt := r.units_rdr.prepare
    units_ccylen := r.units_ccylen
    cost_fmt := r.cost_rdr.prepare
    cost_ccylen := r.cost_ccylen }

/-- The template `fmt_units = '{:U} {:C}'` (both arguments are strings, so
Python pads them left-aligned). -/
def PosPrepared.fmtUnits (f : PosPrepared) (num ccy : Str) : Str :=
  padRight num f.units_fmt.total_width ++ [' '] ++ padRight ccy f.units_ccylen

/-- The braced cost template: `fmt_cost` renders to `{<num> <ccy>}` with the
braces literal (`'{{{{{{:{0}}} {{:{1}}}}}}}'` after both formatting passes). -/
def PosPrepared.fmtCostPart (f : PosPrepared) (num ccy : Str) : Str :=
  [Char.ofNat 123] ++ padRight num f.cost_fmt.total_width ++ [' '] ++
    padRight ccy f.cost_ccylen ++ [Char.ofNat 125]

/-- `self.fmt_cost`: unit part, a space, and the braced cost part. -/
def PosPrepared.fmtCostLine (f : PosPrepared) (num ccy cnum cccy : Str) : Str :=
  f.fmtUnits num ccy ++ [' '] ++ f.fmtCostPart cnum cccy

/-- `self.fmt_nocost`: when `cost_ccylen == 0` the cost field is disabled
and the template is just `fmt_units`; otherwise blanks as wide as a
rendered empty cost field are appended. -/
def PosPrepared.fmtNocost (f : PosPrepared) (num ccy : Str) : Str :=
  if f.cost_ccylen = 0 then f.fmtUnits num ccy
  else f.fmtUnits num ccy ++ [' '] ++ spaces (f.fmtCostPart [] []).length

/-- `self.empty = self.fmt_nocost.format('', '')`. -/
def PosPrepared.emptyLine (f : PosPrepared) : Str := f.fmtNocost [] []

/-- `PositionRenderer.width` (inherited by `InventoryRenderer`). -/
def PosPrepared.width (f : PosPrepared) : Nat := f.emptyLine.length

/-- The single line rendered for one position, shared verbatim by
`PositionRenderer.format` and the per-position loop body of
`InventoryRenderer.format`: without cost tracking only the unit part is
rendered (a cost, if any, is ignored); with cost tracking the cost field is
either filled or blank-padded. -/
def PosPrepared.formatOne (f : PosPrepared) (pos : Position) : Str :=
  if f.cost_ccylen = 0 then
    f.fmtNocost (f.units_fmt.format (some pos.number)) pos.lot.currency
  else
    match pos.lot.cost with
    | some cost =>
      f.fmtCostLine (f.units_fmt.format (some pos.number)) pos.lot.currency
        (f.cost_fmt.format (some cost.number)) cost.currency
    | none => f.fmtNocost (f.units_fmt.format (some pos.number)) pos.lot.currency

/-- A formatted cell as returned by a renderer's `format`: either a plain
string or a list of line strings. -/
inductive Cell where
  | s (line : Str)
  | l (lines : List Str)
  deriving DecidableEq, Repr

/-- `PositionRenderer.format` on an actual position: exactly one string is
accumulated, so the `len(strings) == 1` branch returns it directly. -/
def PosPrepared.formatPos (f : PosPrepared) (pos : Position) : Cell :=
  Cell.s (f.formatOne pos)

/-- `InventoryRenderer.format` on an actual inventory: one line per
position; a single line is returned as a plain string, no line at all
yields the blank `self.empty` line. -/
def PosPrepared.formatInv (f : PosPrepared) (ps : List Position) : Cell :=
  match ps.map f.formatOne with
  | [] => Cell.s f.emptyLine
  | [s] => Cell.s s
  | strings => Cell.l strings

/-! ### Accumulation invariants for positions -/

/-- Both decimal sub-accumulators satisfy their invariant. -/
def PositionRenderer.Wf (r : PositionRenderer) : Prop :=
  r.units_rdr.Wf ∧ r.cost_rdr.Wf

/-- `r` has accumulated position `pos`. -/
def PositionRenderer.Sees (r : PositionRenderer) (pos : Position) : Prop :=
  r.units_rdr.Sees pos.number ∧ pos.lot.currency.length ≤ r.units_ccylen ∧
    ∀ cost, pos.lot.cost = some cost →
      r.cost_rdr.Sees cost.number ∧ cost.currency.length ≤ r.cost_ccylen

theorem pos_wf_init : PositionRenderer.Wf {} :=
  ⟨dec_wf_init, dec_wf_init⟩

theorem pos_wf_update {r : PositionRenderer} (h : r.Wf)
    (v : Option Position) : (r.update v).Wf := by
  obtain ⟨h1, h2⟩ := h
  cases v with
  | none => exact ⟨h1, h2⟩
  | some pos =>
    cases hc : pos.lot.cost with
    | none =>
      simp only [PositionRenderer.update, hc]
      exact ⟨dec_wf_update h1 _, h2⟩
    | some cost =>
      simp only [PositionRenderer.update, hc]
      exact ⟨dec_wf_update h1 _, dec_wf_update h2 _⟩

theorem pos_sees_mono {r : PositionRenderer} {pos : Position}
    (h : r.Sees pos) (v : Option Position) : (r.update v).Sees pos := by
  obtain ⟨h1, h2, h3⟩ := h
  cases v with
  | none => exact ⟨h1, h2, h3⟩
  | some pos2 =>
    cases hc : pos2.lot.cost with
    | none =>
      simp only [PositionRenderer.update, hc]
      exact ⟨dec_sees_mono h1 _, le_trans h2 (le_max_left _ _), h3⟩
    | some cost2 =>
      simp only [PositionRenderer.update, hc]
      refine ⟨dec_sees_mono h1 _, le_trans h2 (le_max_left _ _), ?_⟩
      intro cost hcost
      obtain ⟨hc1, hc2⟩ := h3 cost hcost
      exact ⟨dec_sees_mono hc1 _, le_trans hc2 (le_max_left _ _)⟩

theorem pos_sees_self (r : PositionRenderer) (pos : Position) :
    (r.update (some pos)).Sees pos := by
  cases hc : pos.lot.cost with
  | none =>
    simp only [PositionRenderer.update, hc]
    refine ⟨dec_sees_self _ _, le_max_right _ _, ?_⟩
    intro cost hcost
    rw [hc] at hcost
    cases hcost
  | some cost =>
    simp only [PositionRenderer.update, hc]
    refine ⟨dec_sees_self _ _, le_max_right _ _, ?_⟩
    intro cost2 hcost
    rw [hc] at hcost
    cases hcost
    exact ⟨dec_sees_self _ _, le_max_right _ _⟩

theorem pos_wf_foldl {r : PositionRenderer} (h : r.Wf)
    (vs : List (Option Position)) : (vs.foldl PositionRenderer.update r).Wf := by
  induction vs generalizing r with
  | nil => exact h
  | cons v vs ih => exact ih (pos_wf_update h v)

theorem pos_sees_foldl {r : PositionRenderer} {pos : Position}
    (vs : List (Option Position)) (hx : some pos ∈ vs ∨ r.Sees pos) :
    (vs.foldl PositionRenderer.update r).Sees pos := by
  induction vs generalizing r with
  | nil => simpa using hx.resolve_left (by simp)
  | cons v vs ih =>
    rcases hx with hm | hs
    · rcases List.mem_cons.mp hm with hv | hv
      · subst hv
        exact ih (Or.inr (pos_sees_self r pos))
      · exact ih (Or.inl hv)
    · exact ih (Or.inr (pos_sees_mono hs v))

/-- Folding the positions of one inventory (the `super().update(pos)` loop). -/
theorem posfold_sees {pos : Position} :
    ∀ (t : List Position) (r : PositionRenderer), (pos ∈ t ∨ r.Sees pos) →
      (t.foldl (fun acc p => acc.update (some p)) r).Sees pos := by
  intro t
  induction t with
  | nil =>
    intro r h
    simpa using h.resolve_left (by simp)
  | cons p t ih =>
    intro r h
    rcases h with hm | hs
    · rcases List.mem_cons.mp hm with hv | hv
      · subst hv
        exact ih _ (Or.inr (pos_sees_self r pos))
      · exact ih _ (Or.inl hv)
    · exact ih _ (Or.inr (pos_sees_mono hs (some p)))

theorem posfold_wf : ∀ (t : List Position) (r : PositionRenderer), r.Wf →
    (t.foldl (fun acc p => acc.update (some p)) r).Wf := by
  intro t
  induction t with
  | nil => exact fun r h => h
  | cons p t ih => exact fun r h => ih _ (pos_wf_update h (some p))

theorem invr_wf_update {r : PositionRenderer} (h : r.Wf)
    (v : Option (List Position)) : (InventoryRenderer.update r v).Wf := by
  cases v with
  | none => exact h
  | some ps => exact posfold_wf ps r h

theorem invr_sees_mono {r : PositionRenderer} {pos : Position}
    (h : r.Sees pos) (v : Option (List Position)) :
    (InventoryRenderer.update r v).Sees pos := by
  cases v with
  | none => exact h
  | some ps => exact posfold_sees ps r (Or.inr h)

theorem invr_sees_mem {r : PositionRenderer} {ps : List Position}
    {pos : Position} (hm : pos ∈ ps) :
    (InventoryRenderer.update r (some ps)).Sees pos :=
  posfold_sees ps r (Or.inl hm)

theorem invr_wf_foldl {r : PositionRenderer} (h : r.Wf)
    (vs : List (Option (List Position))) :
    (vs.foldl InventoryRenderer.update r).Wf := by
  induction vs generalizing r with
  | nil => exact h
  | cons v vs ih => exact ih (invr_wf_update h v)

theorem invr_sees_foldl {r : PositionRenderer} {pos : Position}
    (vs : List (Option (List Position)))
    (hx : (∃ ps, some ps ∈ vs ∧ pos ∈ ps) ∨ r.Sees pos) :
    (vs.foldl InventoryRenderer.update r).Sees pos := by
  induction vs generalizing r with
  | nil =>
    rcases hx with ⟨ps, hps, _⟩ | hs
    · simp at hps
    · simpa using hs
  | cons v vs ih =>
    rcases hx with ⟨ps, hps, hmem⟩ | hs
    · rcases List.mem_cons.mp hps with hv | hv
      · subst hv
        exact ih (Or.inr (invr_sees_mem hmem))
      · exact ih (Or.inl ⟨ps, hv, hmem⟩)
    · exact ih (Or.inr (invr_sees_mono hs v))

/-! ### Width facts for position lines -/

theorem fmtUnits_length (f : PosPrepared) (num ccy : Str) :
    (f.fmtUnits num ccy).length =
      max f.units_fmt.total_width num.length + 1 + max f.units_ccylen ccy.length := by
  simp only [PosPrepared.fmtUnits, List.length_append, length_padRight,
    List.length_singleton]
  try omega

theorem fmtCostPart_length (f : PosPrepared) (num ccy : Str) :
    (f.fmtCostPart num ccy).length =
      max f.cost_fmt.total_width num.length + max f.cost_ccylen ccy.length + 3 := by
  simp only [PosPrepared.fmtCostPart, List.length_append, length_padRight,
    List.length_singleton]
  try omega

/-- `width()` in terms of the accumulated field widths. -/
theorem pos_width_eq (f : PosPrepared) :
    f.width =
      if f.cost_ccylen = 0 then f.units_fmt.total_width + 1 + f.units_ccylen
      else f.units_fmt.total_width + 1 + f.units_ccylen + 1 +
        (f.cost_fmt.total_width + f.cost_ccylen + 3) := by
  unfold PosPrepared.width PosPrepared.emptyLine PosPrepared.fmtNocost
  by_cases hcc : f.cost_ccylen = 0
  · rw [if_pos hcc, if_pos hcc, fmtUnits_length]
    simp only [List.length_nil]
    omega
  · rw [if_neg hcc, if_neg hcc]
    simp only [List.length_append, fmtUnits_length, length_spaces,
      fmtCostPart_length, List.length_nil, List.length_singleton]
    omega

/-- Core width fact for positions: a prepared position renderer formats
every accumulated position to exactly `width()` characters. -/
theorem pos_formatOne_length (r : PositionRenderer) (hwf : r.Wf) (pos : Position)
    (hx : r.Sees pos) :
    ((r.prepare).formatOne pos).length = (r.prepare).width := by
  obtain ⟨hwfu, hwfc⟩ := hwf
  obtain ⟨hsu, hcl, hcost⟩ := hx
  have hulen : ((r.prepare).units_fmt.format (some pos.number)).length =
      (r.prepare).units_fmt.total_width :=
    dec_format_length r.units_rdr hwfu pos.number hsu
  have hcl2 : pos.lot.currency.length ≤ (r.prepare).units_ccylen := hcl
  rw [pos_width_eq]
  unfold PosPrepared.formatOne PosPrepared.fmtNocost
  by_cases hcc : (r.prepare).cost_ccylen = 0
  · simp only [if_pos hcc]
    rw [fmtUnits_length, hulen]
    omega
  · simp only [if_neg hcc]
    cases hc : pos.lot.cost with
    | none =>
      simp only [List.length_append, fmtUnits_length, hulen, length_spaces,
        fmtCostPart_length, List.length_nil, List.length_singleton]
      omega
    | some cost =>
      obtain ⟨hcnum, hclen⟩ := hcost cost hc
      have hclenfmt : ((r.prepare).cost_fmt.format (some cost.number)).length =
          (r.prepare).cost_fmt.total_width :=
        dec_format_length r.cost_rdr hwfc cost.number hcnum
      have hclen2 : cost.currency.length ≤ (r.prepare).cost_ccylen := hclen
      simp only [PosPrepared.fmtCostLine, List.length_append, fmtUnits_length,
        hulen, fmtCostPart_length, hclenfmt, List.length_singleton]
      omega

/-! ### `StringRenderer` and `DateTimeRenderer` -/

/-- Accumulation state of `StringRenderer`: the maximum length seen. -/
structure StringRenderer where
  maxlen : Nat := 0
  deriving DecidableEq, Repr

/-- `StringRenderer.update`: `None` is ignored, otherwise track the max. -/
def StringRenderer.update (r : StringRenderer) : Option Str → StringRenderer
  | none => r
  | some s => { maxlen := max r.maxlen s.length }

/-- `StringRenderer.width`. -/
def StringRenderer.width (r : StringRenderer) : Nat := r.maxlen

/-- `StringRenderer.format` after `prepare` built
`'{:<M.M}'` (left align, pad to `maxlen`, truncate at `maxlen`); a `None`
cell formats the empty string. -/
def StringRenderer.format (r : StringRenderer) : Option Str → Str
  | none => padRight ([].take r.maxlen) r.maxlen
  | some s => padRight (s.take r.maxlen) r.maxlen

theorem StringRenderer.format_length (r : StringRenderer) (v : Option Str) :
    (r.format v).length = r.maxlen := by
  cases v with
  | none => simp [StringRenderer.format, length_padRight]
  | some s =>
    simp only [StringRenderer.format, length_padRight, List.length_take]
    omega

/-- A calendar date, as held by a Python `datetime.date`: the constructor
enforces `MINYEAR = 1 ≤ year ≤ MAXYEAR = 9999`, `1 ≤ month ≤ 12` and
`1 ≤ day ≤ 31`. -/
structure DateD where
  year : Nat
  month : Nat
  day : Nat
  deriving DecidableEq, Repr

/-- The range invariant guaranteed by `datetime.date`. -/
def DateD.Valid (d : DateD) : Prop :=
  1 ≤ d.year ∧ d.year ≤ 9999 ∧ 1 ≤ d.month ∧ d.month ≤ 12 ∧ 1 ≤ d.day ∧ d.day ≤ 31

/-- `dtime.strftime('%Y-%m-%d')` with the zero-padded field widths 4-2-2. -/
def formatDate (d : DateD) : Str :=
  zfill (natToDigits d.year) 4 ++ ['-'] ++ zfill (natToDigits d.month) 2 ++
    ['-'] ++ zfill (natToDigits d.day) 2

/-- `DateTimeRenderer.width` is the fixed 10. -/
def dateWidth : Nat := 10

theorem formatDate_length (d : DateD) (h : d.Valid) :
    (formatDate d).length = dateWidth := by
  obtain ⟨h1, h2, h3, h4, h5, h6⟩ := h
  have hy : ndigits d.year ≤ 4 := ndigits_le_of_lt_pow _ _ (by norm_num; omega) (by omega)
  have hm : ndigits d.month ≤ 2 := ndigits_le_of_lt_pow _ _ (by norm_num; omega) (by omega)
  have hd : ndigits d.day ≤ 2 := ndigits_le_of_lt_pow _ _ (by norm_num; omega) (by omega)
  unfold ndigits at hy hm hd
  simp only [formatDate, dateWidth, List.length_append, length_zfill,
    List.length_singleton]
  omega

theorem StringRenderer.maxlen_foldl {r : StringRenderer} {s : Str}
    (vs : List (Option Str)) (hx : some s ∈ vs ∨ s.length ≤ r.maxlen) :
    s.length ≤ (vs.foldl StringRenderer.update r).maxlen := by
  induction vs generalizing r with
  | nil => simpa using hx.resolve_left (by simp)
  | cons v vs ih =>
    rcases hx with hm | hs
    · rcases List.mem_cons.mp hm with hv | hv
      · subst hv
        exact ih (Or.inr (le_max_right _ _))
      · exact ih (Or.inl hv)
    · refine ih (Or.inr ?_)
      cases v with
      | none => exact hs
      | some t => exact le_trans hs (le_max_left _ _)

/-! ### The table pipeline: `get_renderers` and `render_text`

A cell value is `None` or a value of one of the five rendered types; a
column is described by its declared type (`result_types` entry).  Renderer
state is a tagged sum over the five renderer classes; operations that raise
a Python exception (e.g. `update` on a value of the wrong type, or
`format(None)` on a position) return `none`. -/

inductive Value where
  | vnone
  | vstr (s : Str)
  | vdate (d : DateD)
  | vdec (x : Dec)
  | vpos (p : Position)
  | vinv (ps : List Position)

inductive ColType where
  | tstr
  | tdate
  | tdec
  | tpos
  | tinv
  deriving DecidableEq, Repr

/-- Renderer state during the accumulation pass (`RENDERERS[dtype]()`
followed by `update` calls). -/
inductive RState where
  | rstr (r : StringRenderer)
  | rdate
  | rdec (r : DecimalRenderer)
  | rpos (r : PositionRenderer)
  | rinv (r : PositionRenderer)

/-- `RENDERERS[dtype]()`: a fresh renderer for a column type. -/
def initRenderer : ColType → RState
  | .tstr => .rstr {}
  | .tdate => .rdate
  | .tdec => .rdec {}
  | .tpos => .rpos {}
  | .tinv => .rinv {}

/-- One `renderer.update(value)` call.  `DateTimeRenderer.update` ignores
its argument; every other renderer accepts `None` or a value of its own
`dtype` and raises (`none` here) on anything else. -/
def RState.update : RState → Value → Option RState
  | .rstr r, .vnone => some (.rstr (r.update none))
  | .rstr r, .vstr s => some (.rstr (r.update (some s)))
  | .rstr _, _ => none
  | .rdate, _ => some .rdate
  | .rdec r, .vnone => some (.rdec (r.update none))
  | .rdec r, .vdec x => some (.rdec (r.update (some x)))
  | .rdec _, _ => none
  | .rpos r, .vnone => some (.rpos (r.update none))
  | .rpos r, .vpos p => some (.rpos (r.update (some p)))
  | .rpos _, _ => none
  | .rinv r, .vnone => some (.rinv (InventoryRenderer.update r none))
  | .rinv r, .vinv ps => some (.rinv (InventoryRenderer.update r (some ps)))
  | .rinv _, _ => none

/-- Prepared renderer state after `renderer.prepare()`. -/
inductive PState where
  | pstr (f : StringRenderer)
  | pdate
  | pdec (f : DecPrepared)
  | ppos (f : PosPrepared)
  | pinv (f : PosPrepared)

/-- `renderer.prepare()` (for strings the prepared format is determined by
`maxlen`, so the state is carried over). -/
def RState.prepare : RState → PState
  | .rstr r => .pstr r
  | .rdate => .pdate
  | .rdec r => .pdec r.prepare
  | .rpos r => .ppos r.prepare
  | .rinv r => .pinv r.prepare

/-- `renderer.width()`. -/
def PState.width : PState → Nat
  | .pstr f => f.width
  | .pdate => dateWidth
  | .pdec f => f.width
  | .ppos f => f.width
  | .pinv f => f.width

/-- `renderer.format(value)`.  String, date and decimal renderers format
`None` to a blank field; `PositionRenderer.format(None)` evaluates
`pos.lot` and `InventoryRenderer.format(None)` evaluates
`inv.get_positions()`, so both raise `AttributeError` (`none` here), as
does any call on a value of the wrong type. -/
def PState.format : PState → Value → Option Cell
  | .pstr f, .vnone => some (.s (f.format none))
  | .pstr f, .vstr s => some (.s (f.format (some s)))
  | .pstr _, _ => none
  | .pdate, .vnone => some (.s (spaces 10))
  | .pdate, .vdate d => some (.s (formatDate d))
  | .pdate, _ => none
  | .pdec f, .vnone => some (.s (f.format none))
  | .pdec f, .vdec x => some (.s (f.format (some x)))
  | .pdec _, _ => none
  | .ppos f, .vpos p => some (f.formatPos p)
  | .ppos _, _ => none
  | .pinv f, .vinv ps => some (f.formatInv ps)
  | .pinv _, _ => none

/-- The `for value, renderer in zip(row, renderers): renderer.update(value)`
loop of `get_renderers`: `zip` truncates to the shorter list, renderers
beyond the row length keep their state, extra row values are dropped. -/
def updateRow : List RState → List Value → Option (List RState)
  | [], _ => some []
  | rs, [] => some rs
  | r :: rs, v :: vs => do
    let r2 ← r.update v
    let rs2 ← updateRow rs vs
    pure (r2 :: rs2)

/-- `get_renderers(result_types, result_rows)`: instantiate one renderer
per column, feed every row, then prepare every renderer. -/
def get_renderers (types : List ColType) (rows : List (List Value)) :
    Option (List PState) := do
  let rs ← rows.foldlM updateRow (types.map initRenderer)
  pure (rs.map RState.prepare)

/-- The lines of a formatted cell (`exp_value if isinstance(exp_value,
list) else (exp_value,)`). -/
def cellLines : Cell → List Str
  | .s s => [s]
  | .l ls => ls

/-- `max_lines`: the running maximum starts at 1 and only list-valued
cells (`isinstance(exp_lines, list)`) contribute their length. -/
def maxLines (cells : List Cell) : Nat :=
  cells.foldl (fun m c => match c with | .l ls => max m ls.length | .s _ => m) 1

/-- The `for value, renderer in zip(row, renderers)` formatting loop of
`render_text`; a raised exception aborts the whole call. -/
def formatRowCells : List Value → List PState → Option (List Cell)
  | _, [] => some []
  | [], _ => some []
  | v :: vs, p :: ps => do
    let c ← p.format v
    let cs ← formatRowCells vs ps
    pure (c :: cs)

/-- Expansion of one logical row into physical rows: a single-line row is
kept as is; otherwise line `k` takes the `k`-th line of each cell, filling
missing lines with `''` (`zip_longest(..., fillvalue='')`). -/
def expandRow (cells : List Cell) : List (List Cell) :=
  if maxLines cells = 1 then [cells]
  else (List.range (maxLines cells)).map
    (fun k => cells.map (fun c => Cell.s ((cellLines c).getD k [])))

/-- The `str_rows` accumulation loop over all logical rows. -/
def computeStrRows (ps : List PState) : List (List Value) → Option (List (List Cell))
  | [] => some []
  | row :: rest => do
    let cells ← formatRowCells row ps
    let rest2 ← computeStrRows ps rest
    pure (expandRow cells ++ rest2)

/-- `sep.join(parts)`. -/
def joinSep (sep : Str) : List Str → Str
  | [] => []
  | [s] => s
  | s :: rest => s ++ sep ++ joinSep sep rest

/-- `line_body`: `'-' + '-+-'.join('-' * len(fmt.format('')) for ...) + '-'`
where `len(fmt.format(''))` is the column width. -/
def lineBody (ws : List Nat) : Str :=
  ['-'] ++ joinSep ['-', '+', '-'] (ws.map (fun w => List.replicate w '-')) ++ ['-']

/-- `top_line = ",{}.\n"`. -/
def topLine (ws : List Nat) : Str := [','] ++ lineBody ws ++ ['.', '\n']

/-- `middle_line = "+{}+\n"`. -/
def middleLine (ws : List Nat) : Str := ['+'] ++ lineBody ws ++ ['+', '\n']

/-- `bottom_line` uses a backquote and an apostrophe as its corners. -/
def bottomLine (ws : List Nat) : Str :=
  [Char.ofNat 96] ++ lineBody ws ++ [Char.ofNat 39, '\n']

/-- Field substitution of `line_formatter.format(*str_row)`: each of the
`num_cols` placeholders `'{:w}'` takes the next positional argument.  Too
few arguments raise `IndexError` (`none`); surplus arguments are ignored;
a list argument raises `TypeError` on a width format spec (`none`). -/
def padFields : List Nat → List Cell → Option (List Str)
  | [], _ => some []
  | _ :: _, [] => none
  | w :: ws, c :: cs =>
    match c with
    | .s s => (padFields ws cs).map (fun r => padRight s w :: r)
    | .l _ => none

/-- `line_formatter = '| ' + ' | '.join(formats) + ' |\n'` applied to one
physical row. -/
def formatLine (ws : List Nat) (cells : List Cell) : Option Str :=
  (padFields ws cells).map
    (fun fs => ['|', ' '] ++ joinSep [' ', '|', ' '] fs ++ [' ', '|', '\n'])

/-- The write loop over physical rows: the written lines in order, and
whether a formatting exception interrupted the loop. -/
def writeRows (ws : List Nat) : List (List Cell) → List Str × Bool
  | [] => ([], false)
  | r :: rs =>
    match formatLine ws r with
    | none => ([], true)
    | some line =>
      let rest := writeRows ws rs
      (line :: rest.1, rest.2)

/-- The body of `render_text` after the initial assert: build renderers,
format all rows, then write borders and rows.  The result is the list of
chunks written to `file` in order, plus an error flag (`true` when a Python
exception escaped; everything written before it is kept). -/
def renderBody (types : List ColType) (rows : List (List Value)) :
    List Str × Bool :=
  match get_renderers types rows with
  | none => ([], true)
  | some ps =>
    match computeStrRows ps rows with
    | none => ([], true)
    | some srows =>
      let ws := ps.map PState.width
      let written := writeRows ws srows
      (topLine ws :: middleLine ws :: written.1 ++
        (if written.2 then [] else [bottomLine ws]), written.2)

/-- `render_text(result_types, result_rows, file)`: when `result_rows` is
non-empty, `assert len(result_types) == len(result_rows[0])` runs first and
an `AssertionError` writes nothing; then the rendering body runs. -/
def render_text (types : List ColType) (rows : List (List Value)) :
    List Str × Bool :=
  match rows with
  | [] => renderBody types rows
  | r0 :: _ =>
    if types.length = r0.length then renderBody types rows else ([], true)

/-! ### Relating the accumulated statistics to list maxima/minima -/

theorem foldl_max_swap (f : Dec → Int) (l : List Dec) (a b : Int) :
    l.foldl (fun acc y => max acc (f y)) (max a b) =
      max (l.foldl (fun acc y => max acc (f y)) b) a := by
  induction l generalizing a b with
  | nil => exact max_comm a b
  | cons c t ih =>
    simp only [List.foldl_cons]
    rw [max_assoc]
    exact ih _ _

theorem foldl_min_swap (f : Dec → Int) (l : List Dec) (a b : Int) :
    l.foldl (fun acc y => min acc (f y)) (min a b) =
      min (l.foldl (fun acc y => min acc (f y)) b) a := by
  induction l generalizing a b with
  | nil => exact min_comm a b
  | cons c t ih =>
    simp only [List.foldl_cons]
    rw [min_assoc]
    exact ih _ _

/-- The accumulated statistics are exactly the sign-or, running max and
running min over the non-`None` values, in order. -/
theorem decimal_foldl_stats (vs : List (Option Dec)) (r : DecimalRenderer) :
    (vs.foldl DecimalRenderer.update r).has_negative =
        (r.has_negative || (vs.filterMap id).any (fun x => x.sign)) ∧
      (vs.foldl DecimalRenderer.update r).max_adjusted =
        (vs.filterMap id).foldl (fun a x => max a x.adjusted) r.max_adjusted ∧
      (vs.foldl DecimalRenderer.update r).min_exponent =
        (vs.filterMap id).foldl (fun a x => min a x.exp) r.min_exponent := by
  induction vs generalizing r with
  | nil => simp
  | cons v vs ih =>
    cases v with
    | none =>
      simpa [List.filterMap_cons] using ih r
    | some x =>
      obtain ⟨h1, h2, h3⟩ := ih (r.update (some x))
      refine ⟨?_, ?_, ?_⟩
      · rw [List.foldl_cons, h1, List.filterMap_cons]
        simp [DecimalRenderer.update, Bool.or_assoc]
      · rw [List.foldl_cons, h2, List.filterMap_cons]
        simp [DecimalRenderer.update]
      · rw [List.foldl_cons, h3, List.filterMap_cons]
        simp [DecimalRenderer.update]

/-! ### Spec-side width formulas (C2)

These definitions follow the specification's words (`finalize()` in §4.1):
the maxima/minima are taken over the accumulated numbers themselves,
without the implementation's built-in `0` seeds. -/

/-- Spec: `sign_width = 1 if has_negative else 0`, where `has_negative`
means some accumulated number carried the negative sign bit. -/
def specSignWidth (xs : List Dec) : Nat := if xs.any (fun x => x.sign) then 1 else 0

/-- Spec: the maximum adjusted exponent over the accumulated numbers. -/
def specMaxAdjusted (x : Dec) (rest : List Dec) : Int :=
  rest.foldl (fun a y => max a y.adjusted) x.adjusted

/-- Spec: the minimum exponent over the accumulated numbers. -/
def specMinExponent (x : Dec) (rest : List Dec) : Int :=
  rest.foldl (fun a y => min a y.exp) x.exp

/-- Spec: `integer_digits = max(max_integer_magnitude, 0) + 1`. -/
def specIntegerDigits (x : Dec) (rest : List Dec) : Nat :=
  (max (specMaxAdjusted x rest) 0).toNat + 1

/-- Spec: `fractional_digits = -min_fractional_exponent` (0 if ≥ 0). -/
def specFracDigits (x : Dec) (rest : List Dec) : Nat :=
  if 0 ≤ specMinExponent x rest then 0 else (-(specMinExponent x rest)).toNat

/-- Spec: `decimal_point_width = 1 if fractional_digits > 0 else 0`. -/
def specPointWidth (x : Dec) (rest : List Dec) : Nat :=
  if 0 < specFracDigits x rest then 1 else 0

/-- C2: after accumulation, `prepare` computes
`total_width = sign_width + integer_digits + decimal_point_width +
fractional_digits` with `sign_width = 1` iff some accumulated number was
negative, `integer_digits = max(max adjusted exponent, 0) + 1`,
`fractional_digits = -(min exponent)` clamped to `0`, and
`decimal_point_width = 1` iff `fractional_digits > 0`; with no accumulated
numbers `total_width = 1`. -/
theorem decimal_prepare_width_formula (vs : List (Option Dec)) :
    (vs.filterMap id = [] →
      ((vs.foldl DecimalRenderer.update {}).prepare).total_width = 1) ∧
    (∀ x rest, vs.filterMap id = x :: rest →
      ((vs.foldl DecimalRenderer.update {}).prepare).total_width =
        specSignWidth (x :: rest) + specIntegerDigits x rest +
          specPointWidth x rest + specFracDigits x rest) := by
  obtain ⟨h1, h2, h3⟩ := decimal_foldl_stats vs {}
  have hinit : ({} : DecimalRenderer) = ⟨false, 0, 0⟩ := rfl
  rw [hinit] at h1 h2 h3
  constructor
  · intro hemp
    rw [hemp] at h1 h2 h3
    simp only [List.any_nil, List.foldl_nil, Bool.or_false] at h1 h2 h3
    simp only [DecimalRenderer.prepare, h1, h2, h3]
    decide
  · intro x rest hx
    rw [hx] at h1 h2 h3
    simp only [List.foldl_cons] at h2 h3
    rw [foldl_max_swap Dec.adjusted rest 0 x.adjusted] at h2
    rw [foldl_min_swap Dec.exp rest 0 x.exp] at h3
    simp only [DecimalRenderer.prepare, h1, h2, h3]
    unfold specSignWidth specIntegerDigits specPointWidth specFracDigits
    unfold specMaxAdjusted specMinExponent
    have hint : ((max (rest.foldl (fun a y => max a y.adjusted) x.adjusted) 0) ⊔ 0).toNat =
        (max (rest.foldl (fun a y => max a y.adjusted) x.adjusted) 0).toNat := by
      rw [max_assoc, max_self]
    have hfrac : (-(min (rest.foldl (fun a y => min a y.exp) x.exp) 0)).toNat =
        (if 0 ≤ rest.foldl (fun a y => min a y.exp) x.exp then 0
         else (-(rest.foldl (fun a y => min a y.exp) x.exp)).toNat) := by
      split <;> omega
    rw [hint, hfrac]
    simp only [Bool.false_or]

/-- Every line of a formatted inventory cell has the column width. -/
theorem inv_format_lines (r : PositionRenderer) (hwf : r.Wf) (ps : List Position)
    (hsees : ∀ pos ∈ ps, r.Sees pos) :
    ∀ line ∈ cellLines ((r.prepare).formatInv ps),
      line.length = (r.prepare).width := by
  intro line hline
  have hmem : line = (r.prepare).emptyLine ∨
      ∃ pos ∈ ps, line = (r.prepare).formatOne pos := by
    rcases hmap : ps.map (r.prepare).formatOne with _ | ⟨s, _ | ⟨s2, t⟩⟩ <;>
      simp only [PosPrepared.formatInv] at hline <;> rw [hmap] at hline
    · simp only [cellLines, List.mem_singleton] at hline
      exact Or.inl hline
    · simp only [cellLines, List.mem_singleton] at hline
      have hs : s ∈ ps.map (r.prepare).formatOne := by rw [hmap]; simp
      obtain ⟨pos, hpos, hfe⟩ := List.mem_map.mp hs
      refine Or.inr ⟨pos, hpos, ?_⟩
      rw [hline, ← hfe]
    · simp only [cellLines] at hline
      rw [← hmap] at hline
      obtain ⟨pos, hpos, hfe⟩ := List.mem_map.mp hline
      exact Or.inr ⟨pos, hpos, hfe.symm⟩
  rcases hmem with hE | ⟨pos, hpos, hfe⟩
  · rw [hE]
    rfl
  · rw [hfe]
    exact pos_formatOne_length r hwf pos (hsees pos hpos)

/-- C1 (constant width): for each of the five column renderers, after the
accumulation fold and `prepare`, formatting any accumulated value yields a
string (or, for positions and inventories, lines) of exactly `width()`
characters. -/
theorem constant_column_width :
    (∀ (vs : List (Option Str)) (s : Str), some s ∈ vs →
      ((vs.foldl StringRenderer.update {}).format (some s)).length =
        (vs.foldl StringRenderer.update {}).width) ∧
    (∀ d : DateD, d.Valid → (formatDate d).length = dateWidth) ∧
    (∀ (vs : List (Option Dec)) (x : Dec), some x ∈ vs →
      (((vs.foldl DecimalRenderer.update {}).prepare).format (some x)).length =
        ((vs.foldl DecimalRenderer.update {}).prepare).width) ∧
    (∀ (vs : List (Option Position)) (pos : Position), some pos ∈ vs →
      cellLines (((vs.foldl PositionRenderer.update {}).prepare).formatPos pos) =
        [((vs.foldl PositionRenderer.update {}).prepare).formatOne pos] ∧
      (((vs.foldl PositionRenderer.update {}).prepare).formatOne pos).length =
        ((vs.foldl PositionRenderer.update {}).prepare).width) ∧
    (∀ (vs : List (Option (List Position))) (inv : List Position), some inv ∈ vs →
      ∀ line ∈ cellLines (((vs.foldl InventoryRenderer.update {}).prepare).formatInv inv),
        line.length = ((vs.foldl InventoryRenderer.update {}).prepare).width) := by
  refine ⟨?_, ?_, ?_, ?_, ?_⟩
  · intro vs s _
    exact StringRenderer.format_length _ _
  · intro d hd
    exact formatDate_length d hd
  · intro vs x hx
    exact dec_format_length _ (dec_wf_foldl dec_wf_init vs)
      x (dec_sees_foldl vs (Or.inl hx))
  · intro vs pos hpos
    refine ⟨rfl, ?_⟩
    exact pos_formatOne_length _ (pos_wf_foldl pos_wf_init vs)
      pos (pos_sees_foldl vs (Or.inl hpos))
  · intro vs inv hinv line hline
    refine inv_format_lines _ (invr_wf_foldl pos_wf_init vs)
      inv (fun pos hpos => ?_) line hline
    exact invr_sees_foldl vs (Or.inl ⟨inv, hinv, hpos⟩)

theorem constant_column_width_witness :
    ((([some ['a', 'b', 'c'], none, some ['x']].foldl StringRenderer.update
        {}).format (some ['x'])).length =
      ([some ['a', 'b', 'c'], none, some ['x']].foldl StringRenderer.update
        {}).width) ∧
    ((formatDate ⟨2014, 5, 9⟩).length = dateWidth) ∧
    (((([some ⟨true, 1234, -2⟩] : List (Option Dec)).foldl
        DecimalRenderer.update {}).prepare).format
          (some ⟨true, 1234, -2⟩)).length =
      ((([some ⟨true, 1234, -2⟩] : List (Option Dec)).foldl
        DecimalRenderer.update {}).prepare).width ∧
    (cellLines ((([some ⟨⟨false, 5, 0⟩, ⟨['U', 'S', 'D'],
          some ⟨⟨false, 101, -1⟩, ['E', 'U', 'R']⟩⟩⟩].foldl
        PositionRenderer.update {}).prepare).formatPos
          ⟨⟨false, 5, 0⟩, ⟨['U', 'S', 'D'],
          some ⟨⟨false, 101, -1⟩, ['E', 'U', 'R']⟩⟩⟩) =
        [(([some ⟨⟨false, 5, 0⟩, ⟨['U', 'S', 'D'],
          some ⟨⟨false, 101, -1⟩, ['E', 'U', 'R']⟩⟩⟩].foldl
        PositionRenderer.update {}).prepare).formatOne
          ⟨⟨false, 5, 0⟩, ⟨['U', 'S', 'D'],
          some ⟨⟨false, 101, -1⟩, ['E', 'U', 'R']⟩⟩⟩] ∧
      ((([some ⟨⟨false, 5, 0⟩, ⟨['U', 'S', 'D'],
          some ⟨⟨false, 101, -1⟩, ['E', 'U', 'R']⟩⟩⟩].foldl
        PositionRenderer.update {}).prepare).formatOne
          ⟨⟨false, 5, 0⟩, ⟨['U', 'S', 'D'],
          some ⟨⟨false, 101, -1⟩, ['E', 'U', 'R']⟩⟩⟩).length =
        (([some ⟨⟨false, 5, 0⟩, ⟨['U', 'S', 'D'],
          some ⟨⟨false, 101, -1⟩, ['E', 'U', 'R']⟩⟩⟩].foldl
        PositionRenderer.update {}).prepare).width) ∧
    (((cellLines ((([some [⟨⟨false, 5, 0⟩, ⟨['U', 'S', 'D'], none⟩⟩,
          ⟨⟨true, 7, 0⟩, ⟨['C', 'A', 'D'], none⟩⟩]].foldl
        InventoryRenderer.update {}).prepare).formatInv
          [⟨⟨false, 5, 0⟩, ⟨['U', 'S', 'D'], none⟩⟩,
           ⟨⟨true, 7, 0⟩, ⟨['C', 'A', 'D'], none⟩⟩])).getD 0 []).length =
      (([some [⟨⟨false, 5, 0⟩, ⟨['U', 'S', 'D'], none⟩⟩,
          ⟨⟨true, 7, 0⟩, ⟨['C', 'A', 'D'], none⟩⟩]].foldl
        InventoryRenderer.update {}).prepare).width) :=
  by
  refine ⟨constant_column_width.1 _ ['x'] (by simp),
    constant_column_width.2.1 _ (by refine ⟨?_, ?_, ?_, ?_, ?_, ?_⟩ <;> decide),
    constant_column_width.2.2.1 _ _ (by simp),
    constant_column_width.2.2.2.1 _ _ (by simp), ?_⟩
  exact constant_column_width.2.2.2.2
    [some [⟨⟨false, 5, 0⟩, ⟨['U', 'S', 'D'], none⟩⟩,
      ⟨⟨true, 7, 0⟩, ⟨['C', 'A', 'D'], none⟩⟩]]
    [⟨⟨false, 5, 0⟩, ⟨['U', 'S', 'D'], none⟩⟩,
      ⟨⟨true, 7, 0⟩, ⟨['C', 'A', 'D'], none⟩⟩]
    (by simp) _ (by decide)

/-- C5 (no truncation): parsing the text a prepared decimal renderer
produces for any value it accumulated yields exactly the original value:
the precision is the maximum observed, so nothing is rounded or cut. -/
theorem decimal_format_roundtrip (vs : List (Option Dec)) (x : Dec)
    (hx : some x ∈ vs) :
    parseFixedPoint (((vs.foldl DecimalRenderer.update {}).prepare).format
      (some x)) = x.val :=
  dec_parse_roundtrip _ (dec_wf_foldl dec_wf_init vs)
    x (dec_sees_foldl vs (Or.inl hx))

theorem decimal_format_roundtrip_witness :
    parseFixedPoint ((([some ⟨true, 1234, -2⟩, some ⟨false, 5, 1⟩] :
        List (Option Dec)).foldl DecimalRenderer.update
        {}).prepare.format (some ⟨true, 1234, -2⟩)) =
      Dec.val ⟨true, 1234, -2⟩ :=
  decimal_format_roundtrip _ _ (by simp)

/-- C3 (absence): string, date and decimal renderers format a `None` cell
to a blank field of the column width on one line, but
`PositionRenderer.format(None)` and `InventoryRenderer.format(None)`
evaluate `pos.lot` / `inv.get_positions()` on `None` and raise
`AttributeError` instead — contradicting the base-class contract that every
cell may be `None`. -/
theorem none_cell_formatting :
    (∀ f : StringRenderer,
      PState.format (.pstr f) .vnone = some (.s (spaces f.width))) ∧
    (PState.format .pdate .vnone = some (.s (spaces dateWidth))) ∧
    (∀ f : DecPrepared,
      PState.format (.pdec f) .vnone = some (.s (spaces f.width))) ∧
    (∀ f : PosPrepared, PState.format (.ppos f) .vnone = none) ∧
    (∀ f : PosPrepared, PState.format (.pinv f) .vnone = none) := by
  refine ⟨fun f => ?_, rfl, fun f => rfl, fun f => rfl, fun f => rfl⟩
  simp [PState.format, StringRenderer.format, StringRenderer.width,
    padRight, spaces]

theorem spaces_append (a b : Nat) : spaces a ++ spaces b = spaces (a + b) :=
  (List.replicate_add a b ' ').symm

/-- The blank line of a position/inventory column is all spaces, of the
column's width. -/
theorem emptyLine_eq_spaces (f : PosPrepared) : f.emptyLine = spaces f.width := by
  have h : ∃ n, f.emptyLine = spaces n := by
    unfold PosPrepared.emptyLine PosPrepared.fmtNocost PosPrepared.fmtUnits
    by_cases hcc : f.cost_ccylen = 0
    · rw [if_pos hcc, padRight_nil, padRight_nil]
      exact ⟨_, by rw [show ([' '] : Str) = spaces 1 from rfl, spaces_append,
        spaces_append]⟩
    · rw [if_neg hcc, padRight_nil, padRight_nil]
      exact ⟨_, by rw [show ([' '] : Str) = spaces 1 from rfl, spaces_append,
        spaces_append, spaces_append, spaces_append]⟩
  obtain ⟨n, hn⟩ := h
  have hw : f.width = n := by
    unfold PosPrepared.width
    rw [hn, length_spaces]
  rw [hn, hw]

/-- C8: an inventory cell with zero positions formats to exactly one blank
line of the inventory column's computed width — never zero lines. -/
theorem empty_inventory_single_blank_line (f : PosPrepared) :
    f.formatInv [] = Cell.s (spaces f.width) ∧
      cellLines (f.formatInv []) = [spaces f.width] := by
  have h : f.formatInv [] = Cell.s f.emptyLine := rfl
  rw [h, emptyLine_eq_spaces]
  exact ⟨rfl, rfl⟩

/-- The accumulated cost-currency width stays zero as long as every
accumulated cost carries an empty currency label. -/
theorem cost_ccylen_foldl_zero (vs : List (Option Position))
    (r : PositionRenderer) (hr : r.cost_ccylen = 0)
    (h : ∀ pos cost, some pos ∈ vs → pos.lot.cost = some cost →
      cost.currency = []) :
    (vs.foldl PositionRenderer.update r).cost_ccylen = 0 := by
  induction vs generalizing r with
  | nil => exact hr
  | cons v vs ih =>
    cases v with
    | none =>
      exact ih r hr fun pos cost hm hc => h pos cost (by simp [hm]) hc
    | some pos =>
      cases hc : pos.lot.cost with
      | none =>
        refine ih _ ?_ fun pos2 cost hm hcc => h pos2 cost (by simp [hm]) hcc
        simp only [PositionRenderer.update, hc]
        exact hr
      | some cost =>
        refine ih _ ?_ fun pos2 cost2 hm hcc => h pos2 cost2 (by simp [hm]) hcc
        simp only [PositionRenderer.update, hc]
        have hcur : cost.currency = [] := h pos cost (by simp) hc
        simp [hcur, hr]

/-- C10: the cost sub-field is enabled iff the maximum accumulated
cost-currency label length is nonzero — not iff a cost was seen.  When
every accumulated cost carries an empty currency label, `prepare` disables
the cost field: the column reserves no space for it and `format` renders
every position (cost-bearing or not) as the bare unit part. -/
theorem cost_field_enablement (vs : List (Option Position))
    (h : ∀ pos cost, some pos ∈ vs → pos.lot.cost = some cost →
      cost.currency = []) :
    ((vs.foldl PositionRenderer.update {}).prepare).cost_ccylen = 0 ∧
    ((vs.foldl PositionRenderer.update {}).prepare).width =
      ((vs.foldl PositionRenderer.update {}).prepare).units_fmt.total_width + 1 +
        ((vs.foldl PositionRenderer.update {}).prepare).units_ccylen ∧
    ∀ pos, ((vs.foldl PositionRenderer.update {}).prepare).formatOne pos =
      ((vs.foldl PositionRenderer.update {}).prepare).fmtUnits
        (((vs.foldl PositionRenderer.update {}).prepare).units_fmt.format
          (some pos.number)) pos.lot.currency := by
  have hcc : ((vs.foldl PositionRenderer.update {}).prepare).cost_ccylen = 0 :=
    cost_ccylen_foldl_zero vs {} rfl h
  refine ⟨hcc, ?_, fun pos => ?_⟩
  · rw [pos_width_eq, if_pos hcc]
  · unfold PosPrepared.formatOne PosPrepared.fmtNocost
    rw [if_pos hcc, if_pos hcc]

theorem cost_field_enablement_witness :
    (([some ⟨⟨false, 5, 0⟩, ⟨['U', 'S', 'D'],
        some ⟨⟨false, 101, -1⟩, []⟩⟩⟩].foldl PositionRenderer.update
        {}).prepare).cost_ccylen = 0 ∧
    (([some ⟨⟨false, 5, 0⟩, ⟨['U', 'S', 'D'],
        some ⟨⟨false, 101, -1⟩, []⟩⟩⟩].foldl PositionRenderer.update
        {}).prepare).width =
      (([some ⟨⟨false, 5, 0⟩, ⟨['U', 'S', 'D'],
        some ⟨⟨false, 101, -1⟩, []⟩⟩⟩].foldl PositionRenderer.update
        {}).prepare).units_fmt.total_width + 1 +
      (([some ⟨⟨false, 5, 0⟩, ⟨['U', 'S', 'D'],
        some ⟨⟨false, 101, -1⟩, []⟩⟩⟩].foldl PositionRenderer.update
        {}).prepare).units_ccylen ∧
    (([some ⟨⟨false, 5, 0⟩, ⟨['U', 'S', 'D'],
        some ⟨⟨false, 101, -1⟩, []⟩⟩⟩].foldl PositionRenderer.update
        {}).prepare).formatOne
        ⟨⟨false, 5, 0⟩, ⟨['U', 'S', 'D'], some ⟨⟨false, 101, -1⟩, []⟩⟩⟩ =
      (([some ⟨⟨false, 5, 0⟩, ⟨['U', 'S', 'D'],
        some ⟨⟨false, 101, -1⟩, []⟩⟩⟩].foldl PositionRenderer.update
        {}).prepare).fmtUnits
        ((([some ⟨⟨false, 5, 0⟩, ⟨['U', 'S', 'D'],
          some ⟨⟨false, 101, -1⟩, []⟩⟩⟩].foldl PositionRenderer.update
          {}).prepare).units_fmt.format (some ⟨false, 5, 0⟩))
        ['U', 'S', 'D'] := by
  have h := cost_field_enablement
    [some ⟨⟨false, 5, 0⟩, ⟨['U', 'S', 'D'], some ⟨⟨false, 101, -1⟩, []⟩⟩⟩]
    (by
      rintro pos cost hm hc
      simp only [List.mem_singleton, Option.some.injEq] at hm
      subst hm
      simp only [Option.some.injEq] at hc
      rw [← hc])
  exact ⟨h.1, h.2.1, h.2.2 _⟩

/-- C4 counterexample: a second row longer than the column list is not
rejected — the assert only inspects `result_rows[0]`, so the render
completes without error (`zip` silently drops the extra cell). -/
theorem schema_mismatch_second_row_accepted :
    (([[Value.vstr ['a']], [Value.vstr ['a'], Value.vstr ['b']]].getD 1
      []).length ≠ ([ColType.tstr] : List ColType).length) ∧
    (render_text [ColType.tstr]
      [[Value.vstr ['a']], [Value.vstr ['a'], Value.vstr ['b']]]).2 = false ∧
    (render_text [ColType.tstr]
      [[Value.vstr ['a']], [Value.vstr ['a'], Value.vstr ['b']]]).1 ≠ [] := by
  refine ⟨by decide, rfl, by decide⟩

/-- C4 amended: only the first row's length is checked against the column
count; when rows are non-empty and the first row's length differs, the
assertion fires before any accumulation, formatting or output. -/
theorem schema_mismatch_first_row_failfast (types : List ColType)
    (rows : List (List Value)) (r0 : List Value) (rest : List (List Value))
    (h0 : rows = r0 :: rest) (hlen : types.length ≠ r0.length) :
    render_text types rows = ([], true) := by
  subst h0
  simp only [render_text]
  rw [if_neg hlen]

theorem schema_mismatch_first_row_failfast_witness :
    render_text [ColType.tstr] [[Value.vstr ['a'], Value.vstr ['b']]] =
      ([], true) :=
  schema_mismatch_first_row_failfast _ _ _ _ rfl (by decide)

/-- C9 counterexample: a later row shorter than the column count fails
only in the write loop (`IndexError` in `line_formatter.format`), after
the top border, the separator and the first row were already written — the
sink is left with partial output. -/
theorem partial_output_on_write_failure :
    (render_text [ColType.tstr, ColType.tstr]
      [[Value.vstr ['a'], Value.vstr ['b']], [Value.vstr ['c']]]).2 = true ∧
    (render_text [ColType.tstr, ColType.tstr]
      [[Value.vstr ['a'], Value.vstr ['b']], [Value.vstr ['c']]]).1 ≠ [] := by
  refine ⟨rfl, by decide⟩

/-- C9 amended: failures raised before the write phase — the first-row
schema assertion, an accumulation error, or a formatting error — leave the
output sink untouched; only write-phase failures can leave partial
output. -/
theorem prewrite_failure_no_output (types : List ColType)
    (rows : List (List Value))
    (h : (∃ r0 rest, rows = r0 :: rest ∧ types.length ≠ r0.length) ∨
      get_renderers types rows = none ∨
      (∃ ps, get_renderers types rows = some ps ∧
        computeStrRows ps rows = none)) :
    render_text types rows = ([], true) := by
  have hbody : (get_renderers types rows = none ∨
      (∃ ps, get_renderers types rows = some ps ∧
        computeStrRows ps rows = none)) →
      renderBody types rows = ([], true) := by
    intro hb
    rcases hb with hn | ⟨ps, hps, hcs⟩
    · simp only [renderBody, hn]
    · simp only [renderBody, hps, hcs]
  rcases h with ⟨r0, rest, hr, hlen⟩ | hb
  · subst hr
    simp only [render_text]
    rw [if_neg hlen]
  · cases rows with
    | nil =>
      simp only [render_text]
      exact hbody hb
    | cons r0 rest =>
      simp only [render_text]
      by_cases hlen : types.length = r0.length
      · rw [if_pos hlen]
        exact hbody hb
      · rw [if_neg hlen]

theorem prewrite_failure_no_output_witness :
    render_text [ColType.tstr, ColType.tdec] [[Value.vstr ['a']]] =
      ([], true) :=
  prewrite_failure_no_output _ _ (Or.inl ⟨_, _, rfl, by decide⟩)

theorem decimal_prepare_width_formula_witness :
    ((([] : List (Option Dec)).foldl DecimalRenderer.update
        {}).prepare).total_width = 1 ∧
    ((([some ⟨true, 105, -1⟩, none, some ⟨false, 2, 2⟩] :
        List (Option Dec)).foldl DecimalRenderer.update
        {}).prepare).total_width =
      specSignWidth [⟨true, 105, -1⟩, ⟨false, 2, 2⟩] +
        specIntegerDigits ⟨true, 105, -1⟩ [⟨false, 2, 2⟩] +
        specPointWidth ⟨true, 105, -1⟩ [⟨false, 2, 2⟩] +
        specFracDigits ⟨true, 105, -1⟩ [⟨false, 2, 2⟩] :=
  ⟨(decimal_prepare_width_formula []).1 rfl,
   (decimal_prepare_width_formula _).2 _ _ rfl⟩

/-! ### Row expansion (C6) -/

/-- The invariant that actual renderer cells satisfy: a list-valued cell
always holds at least two lines (`format` returns `strings[0]` for one line
and `self.empty` for none). -/
def cellOk : Cell → Bool
  | .s _ => true
  | .l ls => decide (2 ≤ ls.length)

theorem maxLines_init_le : ∀ (l : List Cell) (init : Nat),
    init ≤ l.foldl (fun m c => match c with | .l ls => max m ls.length | .s _ => m) init := by
  intro l
  induction l with
  | nil => exact fun init => le_refl init
  | cons c t ih =>
    intro init
    refine le_trans ?_ (ih _)
    cases c with
    | s s => exact le_refl init
    | l ls => exact le_max_left _ _

theorem maxLines_mem_le : ∀ (l : List Cell) (init : Nat) (ls : List Str),
    Cell.l ls ∈ l →
    ls.length ≤ l.foldl (fun m c => match c with | .l ls => max m ls.length | .s _ => m) init := by
  intro l
  induction l with
  | nil => intro init ls h; simp at h
  | cons c t ih =>
    intro init ls h
    rcases List.mem_cons.mp h with hv | hv
    · subst hv
      simp only [List.foldl_cons]
      exact le_trans (le_max_right _ _) (maxLines_init_le t _)
    · exact ih _ ls hv

theorem one_le_maxLines (cells : List Cell) : 1 ≤ maxLines cells :=
  maxLines_init_le cells 1

/-- With the `cellOk` invariant, a single-line row consists of plain
strings only. -/
theorem maxLines_one_all_strings (cells : List Cell)
    (hok : ∀ c ∈ cells, cellOk c = true) (h1 : maxLines cells = 1) :
    ∀ c ∈ cells, ∃ s, c = Cell.s s := by
  intro c hc
  cases c with
  | s s => exact ⟨s, rfl⟩
  | l ls =>
    have h2 : ls.length ≤ maxLines cells := maxLines_mem_le cells 1 ls hc
    rw [h1] at h2
    have h3 := hok _ hc
    simp [cellOk] at h3
    exact absurd h3 (by omega)

theorem joinSep_length (sep : Str) :
    ∀ l : List Str, (joinSep sep l).length =
      (l.map List.length).sum + sep.length * (l.length - 1) := by
  intro l
  induction l with
  | nil => simp [joinSep]
  | cons s t ih =>
    cases t with
    | nil => simp [joinSep]
    | cons s2 t2 =>
      show (s ++ sep ++ joinSep sep (s2 :: t2)).length = _
      simp only [List.length_append, ih, List.map_cons, List.sum_cons,
        List.length_cons]
      have hm : sep.length * (t2.length + 1 + 1 - 1) =
          sep.length * (t2.length + 1 - 1) + sep.length := by
        have h2 : (t2.length + 1 + 1 - 1) = (t2.length + 1 - 1) + 1 := by omega
        rw [h2, Nat.mul_succ]
      omega

theorem padFields_map (k : Nat) :
    ∀ cols : List (Nat × Cell),
      padFields (cols.map Prod.fst)
        (cols.map (fun wc => Cell.s ((cellLines wc.2).getD k []))) =
      some (cols.map (fun wc => padRight ((cellLines wc.2).getD k []) wc.1)) := by
  intro cols
  induction cols with
  | nil => rfl
  | cons wc t ih =>
    simp only [List.map_cons, padFields, ih]
    rfl

theorem padFields_strings :
    ∀ cols : List (Nat × Cell), (∀ wc ∈ cols, ∃ s, wc.2 = Cell.s s) →
      padFields (cols.map Prod.fst) (cols.map Prod.snd) =
      some (cols.map (fun wc => padRight ((cellLines wc.2).getD 0 []) wc.1)) := by
  intro cols
  induction cols with
  | nil => intro _; rfl
  | cons wc t ih =>
    intro h
    obtain ⟨s, hs⟩ := h wc (by simp)
    simp only [List.map_cons, hs, padFields,
      ih (fun x hx => h x (List.mem_cons_of_mem _ hx))]
    simp [cellLines, hs]

theorem padded_lengths (cols : List (Nat × Cell))
    (hlines : ∀ wc ∈ cols, ∀ line ∈ cellLines wc.2, line.length = wc.1)
    (k : Nat) :
    (cols.map (fun wc => padRight ((cellLines wc.2).getD k []) wc.1)).map
        List.length = cols.map Prod.fst := by
  rw [List.map_map]
  apply List.map_congr_left
  intro wc hwc
  simp only [Function.comp_apply]
  rw [length_padRight]
  rcases Nat.lt_or_ge k (cellLines wc.2).length with hk | hk
  · have hmem : (cellLines wc.2).getD k [] ∈ cellLines wc.2 := by
      rw [List.getD_eq_getElem _ _ hk]
      exact List.getElem_mem hk
    rw [hlines wc hwc _ hmem]
    omega
  · rw [List.getD_eq_default _ _ hk]
    simp

/-- C6 (row expansion): a logical row whose cells have maximum line count
`N` expands to exactly `N` physical rows; the `k`-th physical row formats,
in each column, the `k`-th line of that cell when it exists and blanks
padded to the column width otherwise, and all `N` physical lines have the
same total length. -/
theorem row_expansion (cols : List (Nat × Cell))
    (hlines : ∀ wc ∈ cols, ∀ line ∈ cellLines wc.2, line.length = wc.1)
    (hok : ∀ wc ∈ cols, cellOk wc.2 = true) :
    (expandRow (cols.map Prod.snd)).length = maxLines (cols.map Prod.snd) ∧
    ∀ k, k < maxLines (cols.map Prod.snd) →
      formatLine (cols.map Prod.fst)
          ((expandRow (cols.map Prod.snd)).getD k []) =
        some (['|', ' '] ++ joinSep [' ', '|', ' ']
          (cols.map (fun wc => padRight ((cellLines wc.2).getD k []) wc.1)) ++
          [' ', '|', '\n']) ∧
      (['|', ' '] ++ joinSep [' ', '|', ' ']
          (cols.map (fun wc => padRight ((cellLines wc.2).getD k []) wc.1)) ++
          [' ', '|', '\n']).length =
        5 + (cols.map Prod.fst).sum + 3 * (cols.length - 1) := by
  set cells : List Cell := cols.map Prod.snd with hcells
  have hlen : ∀ k,
      (['|', ' '] ++ joinSep [' ', '|', ' ']
          (cols.map (fun wc => padRight ((cellLines wc.2).getD k []) wc.1)) ++
          [' ', '|', '\n']).length =
        5 + (cols.map Prod.fst).sum + 3 * (cols.length - 1) := by
    intro k
    simp only [List.length_append, joinSep_length, padded_lengths cols hlines k,
      List.length_map, List.length_cons, List.length_nil]
    omega
  constructor
  · unfold expandRow
    by_cases h1 : maxLines cells = 1
    · rw [if_pos h1, h1]
      rfl
    · rw [if_neg h1]
      simp
  · intro k hk
    refine ⟨?_, hlen k⟩
    unfold expandRow
    by_cases h1 : maxLines cells = 1
    · rw [if_pos h1]
      have hk0 : k = 0 := by
        rw [h1] at hk
        omega
      subst hk0
      have hstr : ∀ c ∈ cells, ∃ s, c = Cell.s s :=
        maxLines_one_all_strings cells
          (by
            intro c hc
            rw [hcells] at hc
            obtain ⟨wc, hwc, hwc2⟩ := List.mem_map.mp hc
            rw [← hwc2]
            exact hok wc hwc) h1
      have hstr2 : ∀ wc ∈ cols, ∃ s, wc.2 = Cell.s s := by
        intro wc hwc
        exact hstr wc.2 (by rw [hcells]; exact List.mem_map_of_mem _ hwc)
      show formatLine (cols.map Prod.fst) cells = _
      rw [hcells]
      unfold formatLine
      rw [padFields_strings cols hstr2]
      rfl
    · rw [if_neg h1]
      have hrow : ((List.range (maxLines cells)).map
          (fun k2 => cells.map (fun c => Cell.s ((cellLines c).getD k2 [])))).getD
            k [] =
          cols.map (fun wc => Cell.s ((cellLines wc.2).getD k [])) := by
        rw [List.getD_eq_getElem _ _ (by simpa using hk), List.getElem_map,
          List.getElem_range, hcells, List.map_map]
        rfl
      rw [hrow]
      unfold formatLine
      rw [padFields_map k cols]
      rfl

theorem row_expansion_witness :
    (expandRow ([(1, Cell.s ['a']),
        (2, Cell.l [['b', 'b'], ['c', 'c'], ['d', 'd']])].map Prod.snd)).length =
      maxLines ([(1, Cell.s ['a']),
        (2, Cell.l [['b', 'b'], ['c', 'c'], ['d', 'd']])].map Prod.snd) ∧
    formatLine ([(1, Cell.s ['a']),
        (2, Cell.l [['b', 'b'], ['c', 'c'], ['d', 'd']])].map Prod.fst)
        ((expandRow ([(1, Cell.s ['a']),
          (2, Cell.l [['b', 'b'], ['c', 'c'], ['d', 'd']])].map
            Prod.snd)).getD 1 []) =
      some (['|', ' '] ++ joinSep [' ', '|', ' ']
        ([(1, Cell.s ['a']), (2, Cell.l [['b', 'b'], ['c', 'c'], ['d', 'd']])].map
          (fun wc => padRight ((cellLines wc.2).getD 1 []) wc.1)) ++
        [' ', '|', '\n']) ∧
    (['|', ' '] ++ joinSep [' ', '|', ' ']
        ([(1, Cell.s ['a']), (2, Cell.l [['b', 'b'], ['c', 'c'], ['d', 'd']])].map
          (fun wc => padRight ((cellLines wc.2).getD 1 []) wc.1)) ++
        [' ', '|', '\n']).length =
      5 + ([(1, Cell.s ['a']),
        (2, Cell.l [['b', 'b'], ['c', 'c'], ['d', 'd']])].map Prod.fst).sum +
        3 * ([(1, Cell.s ['a']),
          (2, Cell.l [['b', 'b'], ['c', 'c'], ['d', 'd']])].length - 1) :=
  ⟨(row_expansion _ (by decide) (by decide)).1,
   ((row_expansion _ (by decide) (by decide)).2 1 (by decide)).1,
   ((row_expansion _ (by decide) (by decide)).2 1 (by decide)).2⟩

/-! ### Table structure and emission order (C7) -/

theorem writeRows_success (ws : List Nat) :
    ∀ (l : List (List Cell)) (out : List Str), writeRows ws l = (out, false) →
      out.length = l.length ∧
      ∀ i (h1 : i < l.length) (h2 : i < out.length),
        formatLine ws (l.get ⟨i, h1⟩) = some (out.get ⟨i, h2⟩) := by
  intro l
  induction l with
  | nil =>
    intro out h
    have hout : out = [] := by
      have := congrArg Prod.fst h
      simpa [writeRows] using this.symm
    subst hout
    exact ⟨rfl, fun i h1 _ => absurd h1 (by simp)⟩
  | cons r rs ih =>
    intro out h
    cases hf : formatLine ws r with
    | none =>
      rw [show writeRows ws (r :: rs) = ([], true) by
        simp [writeRows, hf]] at h
      exact absurd (congrArg Prod.snd h) (by simp)
    | some line =>
      rw [show writeRows ws (r :: rs) =
          (line :: (writeRows ws rs).1, (writeRows ws rs).2) by
        simp [writeRows, hf]] at h
      have h2 : (writeRows ws rs).2 = false := by
        have := congrArg Prod.snd h
        simpa using this
      have h1 : out = line :: (writeRows ws rs).1 := by
        have := congrArg Prod.fst h
        simpa using this.symm
      have hrs : writeRows ws rs = ((writeRows ws rs).1, false) := by
        rw [← h2]
      obtain ⟨ihl, ihget⟩ := ih (writeRows ws rs).1 hrs
      subst h1
      refine ⟨by simp [ihl], ?_⟩
      intro i hi1 hi2
      match i with
      | 0 => simpa using hf
      | i + 1 =>
        simp only [List.get_cons_succ]
        exact ihget i (by simpa using hi1) (by simpa using hi2)

theorem computeStrRows_blocks (ps : List PState) :
    ∀ (rows : List (List Value)) (srows : List (List Cell)),
      computeStrRows ps rows = some srows →
      ∃ blocks : List (List (List Cell)),
        blocks.length = rows.length ∧
        srows = blocks.join ∧
        ∀ i (h1 : i < rows.length) (h2 : i < blocks.length),
          ∃ cells, formatRowCells (rows.get ⟨i, h1⟩) ps = some cells ∧
            blocks.get ⟨i, h2⟩ = expandRow cells := by
  intro rows
  induction rows with
  | nil =>
    intro srows h
    have hsr : srows = [] := by
      simp only [computeStrRows, Option.some_inj] at h
      exact h.symm
    subst hsr
    exact ⟨[], rfl, rfl, fun i h1 _ => absurd h1 (by simp)⟩
  | cons row rest ih =>
    intro srows h
    cases hc : formatRowCells row ps with
    | none => rw [computeStrRows, hc] at h; simp at h
    | some cells =>
      cases hr : computeStrRows ps rest with
      | none => rw [computeStrRows, hc, hr] at h; simp at h
      | some rest2 =>
        rw [computeStrRows, hc, hr] at h
        simp at h
        obtain ⟨blocks, hbl, hbj, hbget⟩ := ih rest2 hr
        refine ⟨expandRow cells :: blocks, by simp [hbl], ?_, ?_⟩
        · rw [← h]
          simp [hbj]
        · intro i h1 h2
          match i with
          | 0 => exact ⟨cells, hc, rfl⟩
          | i + 1 =>
            exact hbget i (by simpa using h1) (by simpa using h2)

theorem render_text_success_body (types : List ColType)
    (rows : List (List Value)) (out : List Str)
    (h : render_text types rows = (out, false)) :
    renderBody types rows = (out, false) := by
  cases rows with
  | nil => simpa [render_text] using h
  | cons r0 rest =>
    simp only [render_text] at h
    by_cases hlen : types.length = r0.length
    · rwa [if_pos hlen] at h
    · rw [if_neg hlen] at h
      exact absurd (congrArg Prod.snd h) (by simp)

/-- C7 (table structure and emission order): a successful render writes
exactly the top border, the separator border, one formatted line per
physical row in order, and the bottom border; the physical rows are the
per-logical-row expansions concatenated in input order. -/
theorem table_structure (types : List ColType) (rows : List (List Value))
    (out : List Str) (h : render_text types rows = (out, false)) :
    ∃ ps srows,
      get_renderers types rows = some ps ∧
      computeStrRows ps rows = some srows ∧
      out = topLine (ps.map PState.width) :: middleLine (ps.map PState.width) ::
        (writeRows (ps.map PState.width) srows).1 ++
        [bottomLine (ps.map PState.width)] ∧
      (writeRows (ps.map PState.width) srows).1.length = srows.length ∧
      (∀ i (h1 : i < srows.length)
          (h2 : i < (writeRows (ps.map PState.width) srows).1.length),
        formatLine (ps.map PState.width) (srows.get ⟨i, h1⟩) =
          some ((writeRows (ps.map PState.width) srows).1.get ⟨i, h2⟩)) ∧
      ∃ blocks : List (List (List Cell)),
        blocks.length = rows.length ∧
        srows = blocks.join ∧
        ∀ i (h1 : i < rows.length) (h2 : i < blocks.length),
          ∃ cells, formatRowCells (rows.get ⟨i, h1⟩) ps = some cells ∧
            blocks.get ⟨i, h2⟩ = expandRow cells := by
  have hb := render_text_success_body types rows out h
  cases hg : get_renderers types rows with
  | none =>
    rw [show renderBody types rows = ([], true) by simp [renderBody, hg]] at hb
    exact absurd (congrArg Prod.snd hb) (by simp)
  | some ps =>
    cases hcs : computeStrRows ps rows with
    | none =>
      rw [show renderBody types rows = ([], true) by
        simp [renderBody, hg, hcs]] at hb
      exact absurd (congrArg Prod.snd hb) (by simp)
    | some srows =>
      rw [show renderBody types rows =
          (topLine (ps.map PState.width) :: middleLine (ps.map PState.width) ::
            (writeRows (ps.map PState.width) srows).1 ++
            (if (writeRows (ps.map PState.width) srows).2 then []
             else [bottomLine (ps.map PState.width)]),
           (writeRows (ps.map PState.width) srows).2) by
        simp [renderBody, hg, hcs]] at hb
      have herr : (writeRows (ps.map PState.width) srows).2 = false := by
        have := congrArg Prod.snd hb
        simpa using this
      have hout : out = topLine (ps.map PState.width) ::
          middleLine (ps.map PState.width) ::
          (writeRows (ps.map PState.width) srows).1 ++
          [bottomLine (ps.map PState.width)] := by
        have := congrArg Prod.fst hb
        simp only [herr, if_false] at this
        exact this.symm
      have hws : writeRows (ps.map PState.width) srows =
          ((writeRows (ps.map PState.width) srows).1, false) := by
        rw [← herr]
      obtain ⟨hlen, hget⟩ := writeRows_success (ps.map PState.width) srows _ hws
      obtain ⟨blocks, hb1, hb2, hb3⟩ := computeStrRows_blocks ps rows srows hcs
      exact ⟨ps, srows, rfl, hcs, hout, hlen, hget,
        blocks, hb1, hb2, hb3⟩

theorem table_structure_witness :
    ∃ ps srows,
      get_renderers [ColType.tstr]
          [[Value.vstr ['a']], [Value.vstr ['b', 'b']]] = some ps ∧
      computeStrRows ps [[Value.vstr ['a']], [Value.vstr ['b', 'b']]] =
        some srows ∧
      (render_text [ColType.tstr]
          [[Value.vstr ['a']], [Value.vstr ['b', 'b']]]).1 =
        topLine (ps.map PState.width) :: middleLine (ps.map PState.width) ::
        (writeRows (ps.map PState.width) srows).1 ++
        [bottomLine (ps.map PState.width)] ∧
      (writeRows (ps.map PState.width) srows).1.length = srows.length ∧
      (∀ i (h1 : i < srows.length)
          (h2 : i < (writeRows (ps.map PState.width) srows).1.length),
        formatLine (ps.map PState.width) (srows.get ⟨i, h1⟩) =
          some ((writeRows (ps.map PState.width) srows).1.get ⟨i, h2⟩)) ∧
      ∃ blocks : List (List (List Cell)),
        blocks.length = [[Value.vstr ['a']], [Value.vstr ['b', 'b']]].length ∧
        srows = blocks.join ∧
        ∀ i (h1 : i < [[Value.vstr ['a']], [Value.vstr ['b', 'b']]].length)
            (h2 : i < blocks.length),
          ∃ cells, formatRowCells
              ([[Value.vstr ['a']], [Value.vstr ['b', 'b']]].get ⟨i, h1⟩) ps =
            some cells ∧ blocks.get ⟨i, h2⟩ = expandRow cells :=
  table_structure [ColType.tstr] [[Value.vstr ['a']], [Value.vstr ['b', 'b']]]
    (render_text [ColType.tstr] [[Value.vstr ['a']], [Value.vstr ['b', 'b']]]).1
    (by decide)
